import Mathlib

/-!
Verification of the Indexed Merkle Forest of this repository
(`merkle.py` and `monero_server.py`), as a shallow embedding.

Modelling conventions:
* Byte strings form a free term algebra `ByteStr` (raw payloads, SHA-256,
  concatenation).  SHA-256 is a free constructor, so digest equality is term
  equality -- the standard idealisation that SHA-256 is injective.
* Hex encoding (`codecs.encode(.., hex_codec)`) is a bijection on digests and
  is modelled as the identity, so the binary and hex versions of a function
  coincide.
* The parent/sibling/side back-links that `MerkleTree._build` and
  `MerkleTree.add_adjust` install in `Node` objects are exactly the edges of
  the binary tree they create, so a built tree is represented by the inductive
  type `Tree`; the pointer walk in `_get_proof` becomes a structural descent
  that collects the sibling of each node on the path.
* Exceptions (`MerkleError`, `IndexError`, `KeyError`, `ValueError`) are
  modelled by `Option`: `none` is the failure outcome.
* Python ints are `Int` (leaf indices), list lengths are `Nat`.
* `math.log(n, 2)` truncated with `int(..)` is modelled as the exact integer
  base-2 logarithm `intLog2`.
-/

set_option linter.unusedVariables false

namespace MoneroAds

/-- Byte strings as a free term algebra: raw payload bytes, SHA-256 digests and
concatenation.  `sha` is injective by construction (idealised hash). -/
inductive ByteStr : Type where
  | raw : String → ByteStr
  | sha : ByteStr → ByteStr
  | cat : ByteStr → ByteStr → ByteStr
deriving DecidableEq, Repr

/-- `merkle.hash_function(x).digest()` : SHA-256 of a byte string. -/
def hash_function (b : ByteStr) : ByteStr := ByteStr.sha b

/-- The side tags appearing in proof chains: the strings `'SELF'`, `'L'`,
`'R'`, `'ROOT'` of `merkle.py`. -/
inductive Side where
  | SELF
  | L
  | R
  | ROOT
deriving DecidableEq, Repr

/-- A node of a Merkle tree (`merkle.Node`): `val` is the digest, `idx` the
maximum leaf index of the subtree, and leaves keep their payload in `data`
(`Node.data`; internal nodes store `None`). -/
inductive Tree : Type where
  | leaf (val : ByteStr) (idx : Int) (data : ByteStr)
  | node (val : ByteStr) (idx : Int) (l r : Tree)
deriving DecidableEq, Repr

def Tree.val : Tree → ByteStr
  | .leaf v _ _ => v
  | .node v _ _ _ => v

def Tree.idx : Tree → Int
  | .leaf _ i _ => i
  | .node _ i _ _ => i

/-- `Node.data`: the payload stored at a leaf; internal nodes carry `None`,
modelled by the empty byte string (never consulted on internal nodes). -/
def Tree.dataD : Tree → ByteStr
  | .leaf _ _ d => d
  | .node _ _ _ _ => ByteStr.raw ""

/-- `Node((payload, idx), prehashed, isleaf=True)`: a leaf node.  With
`prehashed` the payload is taken as the digest, otherwise it is hashed. -/
def mkLeaf (data : ByteStr) (idx : Int) (prehashed : Bool) : Tree :=
  if prehashed then Tree.leaf data idx data
  else Tree.leaf (hash_function data) idx data

/-- The parent node created in `MerkleTree._build` and in `add_adjust`:
`Node((a.val + b.val, max(a.idx, b.idx)))` with children `a`, `b`. -/
def mkNode (a b : Tree) : Tree :=
  Tree.node (hash_function (ByteStr.cat a.val b.val)) (max a.idx b.idx) a b

/-- The pairing loop of `MerkleTree._build`: adjacent pairs, left to right
(the input has even length whenever the odd tail was already detached). -/
def pairAdj : List Tree → List Tree
  | [] => []
  | [_] => []
  | a :: b :: rest => mkNode a b :: pairAdj rest

/-- One aggregation step (`MerkleTree._build`): if the level has odd length the
last element is detached, adjacent pairs are merged, and the detached element
is appended unchanged (odd-leaf promotion). -/
def buildLayer (l : List Tree) : List Tree :=
  if l.length % 2 = 1 then pairAdj l.dropLast ++ l.drop (l.length - 1)
  else pairAdj l

theorem pairAdj_length : ∀ l : List Tree, (pairAdj l).length = l.length / 2
  | [] => by simp [pairAdj]
  | [a] => by simp [pairAdj]
  | a :: b :: rest => by
      have ih := pairAdj_length rest
      simp only [pairAdj, List.length_cons, ih]
      omega

theorem buildLayer_length (l : List Tree) :
    (buildLayer l).length = l.length / 2 + l.length % 2 := by
  unfold buildLayer
  by_cases h : l.length % 2 = 1
  · rw [if_pos h]
    have hne : l ≠ [] := by
      intro he; rw [he] at h; simp at h
    rw [List.length_append, pairAdj_length, List.length_drop,
        List.length_dropLast]
    omega
  · rw [if_neg h, pairAdj_length]
    omega

theorem buildLayer_length_lt (l : List Tree) (h : 2 ≤ l.length) :
    (buildLayer l).length < l.length := by
  rw [buildLayer_length]
  omega

/-- The `while len(layer) != 1` loop of `MerkleTree.build`, with an explicit
fuel bound so that the definition is structurally recursive and executable.
One layer reduction strictly shrinks the level, so `fuel = length` always
suffices (`buildLoopFuel_congr`).  An empty layer loops forever in Python
only behind the emptiness guard of `build`; here it is `none`. -/
def buildLoopFuel : Nat → List Tree → Option Tree
  | _, [] => none
  | _, [t] => some t
  | 0, _ :: _ :: _ => none
  | fuel + 1, a :: b :: rest => buildLoopFuel fuel (buildLayer (a :: b :: rest))

def buildLoop (l : List Tree) : Option Tree := buildLoopFuel l.length l

theorem buildLoopFuel_congr :
    ∀ (f1 f2 : Nat) (l : List Tree), l.length ≤ f1 → l.length ≤ f2 →
      buildLoopFuel f1 l = buildLoopFuel f2 l := by
  intro f1
  induction f1 with
  | zero =>
      intro f2 l h1 _
      match l with
      | [] => cases f2 <;> rfl
      | [t] => cases f2 <;> rfl
      | a :: b :: rest => simp at h1
  | succ f ih =>
      intro f2 l h1 h2
      match l with
      | [] => cases f2 <;> rfl
      | [t] => cases f2 <;> rfl
      | a :: b :: rest =>
          match f2 with
          | 0 => simp at h2
          | f2x + 1 =>
              show buildLoopFuel f (buildLayer (a :: b :: rest))
                  = buildLoopFuel f2x (buildLayer (a :: b :: rest))
              have hlt := buildLayer_length_lt (a :: b :: rest) (by simp)
              exact ih f2x _ (by omega) (by omega)

/-- `buildLoop` satisfies the intended recursion. -/
theorem buildLoop_step (a b : Tree) (rest : List Tree) :
    buildLoop (a :: b :: rest) = buildLoop (buildLayer (a :: b :: rest)) := by
  have hlt := buildLayer_length_lt (a :: b :: rest) (by simp)
  simp only [List.length_cons] at hlt
  have hstep : buildLoop (a :: b :: rest)
      = buildLoopFuel (rest.length + 1) (buildLayer (a :: b :: rest)) := rfl
  rw [hstep]
  exact buildLoopFuel_congr _ _ _ (by omega) (le_refl _)

/-- `merkle.MerkleTree`: the stored leaf list and the root computed by
`build` (or `None` before building). -/
structure MerkleTree where
  leaves : List Tree
  root : Option Tree
deriving DecidableEq, Repr

/-- `MerkleTree(leaves=.., prehashed=..)`.  Hex decoding (`raw_digests=False`
with `prehashed=True`) is the identity in this model, so the two prehashed
constructor branches coincide. -/
def MerkleTree.mk_of (leaves : List (ByteStr × Int)) (prehashed : Bool) :
    MerkleTree :=
  { leaves := leaves.map (fun p => mkLeaf p.1 p.2 prehashed), root := none }

/-- `MerkleTree.build`: fails (`MerkleError`) iff there are no leaves;
otherwise installs the root and leaves the leaf list untouched (the Python
loop works on the copy `self.leaves[::]`). -/
def MerkleTree.build (m : MerkleTree) : Option MerkleTree :=
  match buildLoop m.leaves with
  | none => none
  | some r => some { m with root := some r }

/-- Construct a tree from `(payload, idx)` pairs and build it. -/
def buildTree (leaves : List (ByteStr × Int)) (prehashed : Bool) :
    Option MerkleTree :=
  (MerkleTree.mk_of leaves prehashed).build

/-- `merkle.get_num_leaves`. -/
def get_num_leaves (m : MerkleTree) : Nat := m.leaves.length

def Tree.leavesList : Tree → List Tree
  | .leaf v i d => [.leaf v i d]
  | .node _ _ l r => l.leavesList ++ r.leavesList

def Tree.leafCount : Tree → Nat
  | .leaf _ _ _ => 1
  | .node _ _ l r => l.leafCount + r.leafCount

/-- The leaf at in-order position `i`. -/
def Tree.leafAt : Tree → Nat → Tree
  | .leaf v i d, _ => .leaf v i d
  | .node _ _ l r, i =>
      if i < l.leafCount then l.leafAt i else r.leafAt (i - l.leafCount)

/-- The siblings collected by the `while this.p` walk of
`MerkleTree._get_proof`, bottom-up: at each pairing on the path from leaf
position `i` to the root, the entry `((sibling.val, sibling.idx),
sibling.side)`.  A level at which the node was promoted unpaired contributes
nothing. -/
def Tree.proofSibs : Tree → Nat → List ((ByteStr × Int) × Side)
  | .leaf _ _ _, _ => []
  | .node _ _ l r, i =>
      if i < l.leafCount then l.proofSibs i ++ [((r.val, r.idx), Side.R)]
      else r.proofSibs (i - l.leafCount) ++ [((l.val, l.idx), Side.L)]

/-- A proof chain: `((digest, idx), side)` entries. -/
abbrev Chain := List ((ByteStr × Int) × Side)

/-- The chain returned by `MerkleTree._get_proof` for leaf position `i` of a
built tree: the leaf tagged `SELF`, the siblings bottom-up, the root tagged
`ROOT`. -/
def chainOf (r : Tree) (i : Nat) : Chain :=
  (((r.leafAt i).val, (r.leafAt i).idx), Side.SELF) ::
    (r.proofSibs i ++ [((r.val, r.idx), Side.ROOT)])

/-- Python list indexing `l[i]`: negative indices resolve from the end;
`IndexError` (here `none`) iff `i ≥ len` or `i < -len`. -/
def pyGet (l : List Tree) (i : Int) : Option Tree :=
  if 0 ≤ i then l.get? i.toNat
  else if i.natAbs ≤ l.length then l.get? (l.length - i.natAbs) else none

/-- The list position a (possibly negative) Python index denotes. -/
def pyPos (n : Nat) (i : Int) : Nat :=
  if 0 ≤ i then i.toNat else n - i.natAbs

/-- `MerkleTree.get_proof(index)` (the hex encoding is the identity here, so
this is also `_get_proof`): fetch `self.leaves[index]` with Python indexing,
then walk to the root.  On an unbuilt tree the walk stops immediately and the
chain degenerates to `[SELF, ROOT]` on the leaf itself. -/
def MerkleTree.get_proof (m : MerkleTree) (index : Int) : Option Chain :=
  (pyGet m.leaves index).map (fun lf =>
    match m.root with
    | some r => chainOf r (pyPos m.leaves.length index)
    | none => [((lf.val, lf.idx), Side.SELF), ((lf.val, lf.idx), Side.ROOT)])

def MerkleTree.get_proof_nat (m : MerkleTree) (i : Nat) : Option Chain :=
  m.get_proof (i : Int)

/-- The verification loop of `merkle._check_proof`: fold the running digest
over the middle entries; a tag other than `L`/`R` raises `MerkleError`
(`none`). -/
def foldLink (link : ByteStr) : Chain → Option ByteStr
  | [] => some link
  | ((v, _), s) :: rest =>
      match s with
      | Side.R => foldLink (hash_function (ByteStr.cat link v)) rest
      | Side.L => foldLink (hash_function (ByteStr.cat v link)) rest
      | _ => none

/-- `merkle._check_proof` / `merkle.check_proof` (hex is the identity): start
from `chain[0]`, fold over `chain[1:-1]`, compare with `chain[-1]`; return the
recomputed root on success, `MerkleError` (`none`) otherwise.  Note only the
digests take part; the `idx` components are ignored. -/
def check_proof (chain : Chain) : Option ByteStr :=
  match chain with
  | [] => none
  | c0 :: rest =>
      match foldLink c0.1.1 rest.dropLast with
      | none => none
      | some link =>
          if link = ((c0 :: rest).getLast (List.cons_ne_nil c0 rest)).1.1
          then some link else none

/-- `merkle.join_chains`: requires `low[-1][0] == high[0][0]` -- note this
compares the whole `(digest, idx)` pair -- and returns `low[:-1] + high[1:]`;
`MerkleError` (`none`) when the pivots differ (`DisjointChains`). -/
def join_chains (low high : Chain) : Option Chain :=
  match low.getLast?, high.head? with
  | some la, some h0 =>
      if la.1 = h0.1 then some (low.dropLast ++ high.drop 1) else none
  | _, _ => none

/-- `int(log(n, 2))`, the floor of the base-2 logarithm (the floating point
log of the source is modelled exactly), written with a fuel argument so that
it is structurally recursive and executable. -/
def intLog2F : Nat → Nat → Nat
  | 0, _ => 0
  | fuel + 1, n => if 2 ≤ n then intLog2F fuel (n / 2) + 1 else 0

def intLog2 (n : Nat) : Nat := intLog2F n n

theorem intLog2F_congr :
    ∀ (f1 f2 n : Nat), n ≤ f1 → n ≤ f2 → intLog2F f1 n = intLog2F f2 n := by
  intro f1
  induction f1 with
  | zero =>
      intro f2 n h1 _
      have hn : n = 0 := by omega
      subst hn
      cases f2 with
      | zero => rfl
      | succ g => simp [intLog2F]
  | succ f ih =>
      intro f2 n h1 h2
      by_cases hn : 2 ≤ n
      · cases f2 with
        | zero => omega
        | succ g =>
            show (if 2 ≤ n then intLog2F f (n / 2) + 1 else 0)
                = (if 2 ≤ n then intLog2F g (n / 2) + 1 else 0)
            rw [if_pos hn, if_pos hn, ih g (n / 2) (by omega) (by omega)]
      · cases f2 with
        | zero =>
            have h0 : n = 0 := by omega
            subst h0
            simp [intLog2F]
        | succ g =>
            show (if 2 ≤ n then intLog2F f (n / 2) + 1 else 0)
                = (if 2 ≤ n then intLog2F g (n / 2) + 1 else 0)
            rw [if_neg hn, if_neg hn]

theorem intLog2_def (n : Nat) :
    intLog2 n = if 2 ≤ n then intLog2 (n / 2) + 1 else 0 := by
  by_cases hn : 2 ≤ n
  · rw [if_pos hn]
    match n, hn with
    | m + 2, _ =>
        show (if 2 ≤ m + 2 then intLog2F (m + 1) ((m + 2) / 2) + 1 else 0) = _
        rw [if_pos (by omega),
            intLog2F_congr (m + 1) ((m + 2) / 2) ((m + 2) / 2) (by omega)
              (le_refl _)]
        rfl
  · rw [if_neg hn]
    match n, hn with
    | 0, _ => rfl
    | 1, _ => rfl
    | m + 2, hn => exact absurd (by omega) hn

theorem two_pow_intLog2_le : ∀ n : Nat, n ≠ 0 → 2 ^ intLog2 n ≤ n
  | 0, h => absurd rfl h
  | 1, _ => by rw [intLog2_def]; norm_num
  | n + 2, _ => by
      rw [intLog2_def, if_pos (by omega), pow_succ]
      have ih := two_pow_intLog2_le ((n + 2) / 2) (by omega)
      omega
termination_by n => n
decreasing_by
  omega

theorem intLog2_two_mul (k : Nat) (hk : k ≠ 0) :
    intLog2 (2 * k) = intLog2 k + 1 := by
  rw [intLog2_def, if_pos (by omega), show 2 * k / 2 = k by omega]

theorem intLog2_two_mul_add_one (k : Nat) (hk : k ≠ 0) :
    intLog2 (2 * k + 1) = intLog2 k + 1 := by
  rw [intLog2_def, if_pos (by omega), show (2 * k + 1) / 2 = k by omega]

/-- The loose-leaf counter of `MerkleTree._get_whole_subtrees`:
`len(leaves) - 2**int(log(len(leaves), 2))`. -/
def looseOf (n : Nat) : Nat := n - 2 ^ intLog2 n

theorem looseOf_two_mul (k : Nat) (hk : k ≠ 0) :
    looseOf (2 * k) = 2 * looseOf k := by
  unfold looseOf
  rw [intLog2_two_mul k hk, pow_succ]
  have := two_pow_intLog2_le k hk
  omega

theorem looseOf_two_mul_add_one (k : Nat) (hk : k ≠ 0) :
    looseOf (2 * k + 1) = 2 * looseOf k + 1 := by
  unfold looseOf
  rw [intLog2_two_mul_add_one k hk, pow_succ]
  have := two_pow_intLog2_le k hk
  omega

/-- The descent of `MerkleTree._get_whole_subtrees`: while the loose counter
is non-zero, record the left child and descend right, decreasing the counter
by its top power of two; finally record the current node.  (On a leaf with a
non-zero counter Python would dereference `None`; that case is unreachable on
built trees and returns the node itself here.) -/
def subtreesAux : Tree → Nat → List Tree
  | t, 0 => [t]
  | .leaf v i d, _ + 1 => [Tree.leaf v i d]
  | .node _ _ l r, c + 1 => l :: subtreesAux r (c + 1 - 2 ^ intLog2 (c + 1))

/-- `MerkleTree._get_whole_subtrees` on a built tree. -/
def MerkleTree.get_whole_subtrees (m : MerkleTree) : List Tree :=
  match m.root with
  | some r => subtreesAux r (looseOf m.leaves.length)
  | none => []

/-- The `for node in reversed(subtrees)` loop of `add_adjust`: fold the new
node under each whole-subtree root, smallest first. -/
def adjustFold (subs : List Tree) (x : Tree) : Tree :=
  subs.reverse.foldl (fun acc s => mkNode s acc) x

/-- `MerkleTree.add_adjust(data, prehashed)`: append a new leaf and rebuild
only the right spine above the whole subtrees.  The subtree list is computed
before the append, so the counter uses the old leaf count.  (Python would
crash on an unbuilt tree; that branch leaves the root `None` here.) -/
def MerkleTree.add_adjust (m : MerkleTree) (data : ByteStr × Int)
    (prehashed : Bool) : MerkleTree :=
  let new_node := mkLeaf data.1 data.2 prehashed
  match m.root with
  | some r =>
      { leaves := m.leaves ++ [new_node],
        root := some (adjustFold (subtreesAux r (looseOf m.leaves.length))
                        new_node) }
  | none => { leaves := m.leaves ++ [new_node], root := none }

/-- Is the node a leaf (`Node` with `isleaf=True`, no children)? -/
def Tree.isLeafT : Tree → Bool
  | .leaf _ _ _ => true
  | .node _ _ _ _ => false

/-- Hash consistency (spec invariant 1): every internal node digest is the
hash of the concatenation of its children's digests. -/
def Tree.hashOk : Tree → Bool
  | .leaf _ _ _ => true
  | .node v _ l r =>
      decide (v = hash_function (ByteStr.cat l.val r.val)) && l.hashOk && r.hashOk

/-- Index aggregation (spec invariant 2, local form): every internal node
index is the max of its children's indices. -/
def Tree.idxOk : Tree → Bool
  | .leaf _ _ _ => true
  | .node _ i l r => decide (i = max l.idx r.idx) && l.idxOk && r.idxOk

/-- The maximum leaf index in a subtree. -/
def Tree.maxLeafIdx : Tree → Int
  | .leaf _ i _ => i
  | .node _ _ l r => max l.maxLeafIdx r.maxLeafIdx

/-- All subtrees of a tree (the tree itself included). -/
def Tree.nodesList : Tree → List Tree
  | .leaf v i d => [.leaf v i d]
  | .node v i l r => Tree.node v i l r :: (l.nodesList ++ r.nodesList)

/-- The concatenation of the leaves under each tree of a layer. -/
def layerLeaves (l : List Tree) : List Tree :=
  (l.map Tree.leavesList).flatten

theorem hashOk_mkNode (a b : Tree) :
    (mkNode a b).hashOk = (a.hashOk && b.hashOk) := by
  simp [mkNode, Tree.hashOk]

theorem idxOk_mkNode (a b : Tree) :
    (mkNode a b).idxOk = (a.idxOk && b.idxOk) := by
  simp [mkNode, Tree.idxOk]

theorem pairAdj_pred (P : Tree → Prop)
    (hmk : ∀ a b, P a → P b → P (mkNode a b)) :
    ∀ l : List Tree, (∀ t ∈ l, P t) → ∀ t ∈ pairAdj l, P t
  | [], _, t, ht => by simp [pairAdj] at ht
  | [a], _, t, ht => by simp [pairAdj] at ht
  | a :: b :: rest, h, t, ht => by
      simp only [pairAdj, List.mem_cons] at ht
      rcases ht with h1 | h2
      · subst h1
        exact hmk a b (h a (by simp)) (h b (by simp))
      · exact pairAdj_pred P hmk rest
          (fun u hu => h u (by simp [hu])) t h2

theorem buildLayer_pred (P : Tree → Prop)
    (hmk : ∀ a b, P a → P b → P (mkNode a b))
    (l : List Tree) (h : ∀ t ∈ l, P t) : ∀ t ∈ buildLayer l, P t := by
  intro t ht
  unfold buildLayer at ht
  split at ht
  · rcases List.mem_append.mp ht with h1 | h2
    · exact pairAdj_pred P hmk l.dropLast
        (fun u hu => h u (List.dropLast_subset l hu)) t h1
    · exact h t (List.drop_subset _ l h2)
  · exact pairAdj_pred P hmk l h t ht

theorem buildLoop_pred (P : Tree → Prop)
    (hmk : ∀ a b, P a → P b → P (mkNode a b)) :
    ∀ l : List Tree, (∀ t ∈ l, P t) → ∀ r, buildLoop l = some r → P r
  | [], _, r, hr => by simp [buildLoop, buildLoopFuel] at hr
  | [t], h, r, hr => by
      simp only [buildLoop, buildLoopFuel, Option.some.injEq] at hr
      exact hr ▸ h t (by simp)
  | a :: b :: rest, h, r, hr => by
      rw [buildLoop_step] at hr
      exact buildLoop_pred P hmk _ (buildLayer_pred P hmk _ h) r hr
termination_by l => l.length
decreasing_by
  exact buildLayer_length_lt _ (by simp)

theorem buildLoop_isSome :
    ∀ l : List Tree, l ≠ [] → (buildLoop l).isSome = true
  | [], h => absurd rfl h
  | [t], _ => by simp [buildLoop, buildLoopFuel]
  | a :: b :: rest, _ => by
      rw [buildLoop_step]
      refine buildLoop_isSome _ ?_
      intro he
      have hlen := buildLayer_length (a :: b :: rest)
      rw [he] at hlen
      simp at hlen
      omega
termination_by l => l.length
decreasing_by
  exact buildLayer_length_lt _ (by simp)

theorem layerLeaves_append (a b : List Tree) :
    layerLeaves (a ++ b) = layerLeaves a ++ layerLeaves b := by
  simp [layerLeaves]

theorem pairAdj_layerLeaves :
    ∀ l : List Tree, l.length % 2 = 0 →
      layerLeaves (pairAdj l) = layerLeaves l
  | [], _ => rfl
  | [a], h => by simp at h
  | a :: b :: rest, h => by
      have h2 : rest.length % 2 = 0 := by
        simp only [List.length_cons] at h
        omega
      have ih := pairAdj_layerLeaves rest h2
      simp only [pairAdj, layerLeaves, List.map_cons, List.flatten_cons] at ih ⊢
      rw [ih, mkNode]
      simp [Tree.leavesList]

theorem drop_length_sub_one {α : Type} (xs : List α) (x : α) :
    (xs ++ [x]).drop ((xs ++ [x]).length - 1) = [x] := by
  rw [show (xs ++ [x]).length - 1 = xs.length by simp, List.drop_left]

theorem buildLayer_layerLeaves (l : List Tree) :
    layerLeaves (buildLayer l) = layerLeaves l := by
  unfold buildLayer
  by_cases h : l.length % 2 = 1
  · rw [if_pos h]
    have hne : l ≠ [] := by intro he; rw [he] at h; simp at h
    have hdrop := drop_length_sub_one l.dropLast (l.getLast hne)
    rw [List.dropLast_append_getLast hne] at hdrop
    have heven : l.dropLast.length % 2 = 0 := by
      rw [List.length_dropLast]
      omega
    rw [hdrop, layerLeaves_append, pairAdj_layerLeaves _ heven,
        ← layerLeaves_append, List.dropLast_append_getLast hne]
  · rw [if_neg h]
    exact pairAdj_layerLeaves l (by omega)

theorem buildLoop_leavesList :
    ∀ l : List Tree, ∀ r, buildLoop l = some r →
      r.leavesList = layerLeaves l
  | [], r, hr => by simp [buildLoop, buildLoopFuel] at hr
  | [t], r, hr => by
      simp only [buildLoop, buildLoopFuel, Option.some.injEq] at hr
      subst hr
      simp [layerLeaves]
  | a :: b :: rest, r, hr => by
      rw [buildLoop_step] at hr
      rw [buildLoop_leavesList _ r hr, buildLayer_layerLeaves]
termination_by l => l.length
decreasing_by
  exact buildLayer_length_lt _ (by simp)

theorem layerLeaves_of_leaves (l : List Tree) (h : ∀ t ∈ l, t.isLeafT = true) :
    layerLeaves l = l := by
  induction l with
  | nil => rfl
  | cons a rest ih =>
      have ha : a.isLeafT = true := h a (by simp)
      have hl : a.leavesList = [a] := by
        cases a with
        | leaf v i d => rfl
        | node v i x y => simp [Tree.isLeafT] at ha
      simp only [layerLeaves, List.map_cons, List.flatten_cons] at ih ⊢
      rw [hl, ih (fun t ht => h t (by simp [ht]))]
      rfl

theorem mkLeaf_isLeafT (d : ByteStr) (i : Int) (ph : Bool) :
    (mkLeaf d i ph).isLeafT = true := by
  unfold mkLeaf
  split <;> rfl

theorem mk_of_leaves (leaves : List (ByteStr × Int)) (ph : Bool) :
    ∀ t ∈ (MerkleTree.mk_of leaves ph).leaves, t.isLeafT = true := by
  intro t ht
  simp only [MerkleTree.mk_of, List.mem_map] at ht
  obtain ⟨p, _, hp⟩ := ht
  exact hp ▸ mkLeaf_isLeafT p.1 p.2 ph

theorem Tree.leafCount_eq (t : Tree) : t.leafCount = t.leavesList.length := by
  induction t with
  | leaf v i d => rfl
  | node v i l r ihl ihr => simp [Tree.leafCount, Tree.leavesList, ihl, ihr]

theorem foldLink_append (x : ByteStr) (a b : Chain) :
    foldLink x (a ++ b) = (foldLink x a).bind (fun y => foldLink y b) := by
  induction a generalizing x with
  | nil => simp [foldLink]
  | cons c rest ih =>
      obtain ⟨⟨v, i⟩, s⟩ := c
      cases s <;> simp [foldLink, ih]

theorem foldLink_proofSibs :
    ∀ (t : Tree) (i : Nat), t.hashOk = true → i < t.leafCount →
      foldLink (t.leafAt i).val (t.proofSibs i) = some t.val
  | .leaf v ix d, i, _, _ => by simp [Tree.leafAt, Tree.proofSibs, foldLink]
  | .node v ix l r, i, hok, hi => by
      simp only [Tree.hashOk, Bool.and_eq_true, decide_eq_true_eq] at hok
      obtain ⟨⟨hv, hl⟩, hr⟩ := hok
      simp only [Tree.leafAt, Tree.proofSibs]
      by_cases hc : i < l.leafCount
      · rw [if_pos hc, if_pos hc, foldLink_append,
            foldLink_proofSibs l i hl hc]
        simp [foldLink, hv, hash_function, Tree.val]
      · have hc2 : i - l.leafCount < r.leafCount := by
          simp only [Tree.leafCount] at hi
          omega
        rw [if_neg hc, if_neg hc, foldLink_append,
            foldLink_proofSibs r (i - l.leafCount) hr hc2]
        simp [foldLink, hv, hash_function, Tree.val]

theorem buildTree_parts (leaves : List (ByteStr × Int)) (ph : Bool)
    (m : MerkleTree) (h : buildTree leaves ph = some m) :
    m.leaves = (MerkleTree.mk_of leaves ph).leaves ∧
      ∃ r, m.root = some r ∧ buildLoop (MerkleTree.mk_of leaves ph).leaves = some r := by
  unfold buildTree MerkleTree.build at h
  rcases hb : buildLoop (MerkleTree.mk_of leaves ph).leaves with _ | r
  · rw [hb] at h; exact absurd h (by simp)
  · rw [hb] at h
    simp only [Option.some.injEq] at h
    subst h
    exact ⟨rfl, r, rfl, rfl⟩

theorem getLast_eq_of_getLast?_eq {α : Type} (l : List α) (h : l ≠ [])
    (e : α) (he : l.getLast? = some e) : l.getLast h = e := by
  rw [List.getLast?_eq_getLast l h] at he
  exact Option.some_injective _ he

theorem mkLeaf_hashOk (d : ByteStr) (i : Int) (ph : Bool) :
    (mkLeaf d i ph).hashOk = true := by
  unfold mkLeaf
  split <;> rfl

theorem mkLeaf_idxOk (d : ByteStr) (i : Int) (ph : Bool) :
    (mkLeaf d i ph).idxOk = true := by
  unfold mkLeaf
  split <;> rfl

theorem buildLoop_hashOk (l : List Tree) (h : ∀ t ∈ l, t.hashOk = true)
    (r : Tree) (hr : buildLoop l = some r) : r.hashOk = true :=
  buildLoop_pred (fun t => t.hashOk = true)
    (fun a b ha hb => by
      show (mkNode a b).hashOk = true
      rw [hashOk_mkNode]
      rw [show a.hashOk = true from ha, show b.hashOk = true from hb]
      rfl) l h r hr

theorem buildLoop_leafCount (leaves : List (ByteStr × Int)) (ph : Bool)
    (r : Tree) (hr : buildLoop (MerkleTree.mk_of leaves ph).leaves = some r) :
    r.leafCount = leaves.length := by
  rw [Tree.leafCount_eq, buildLoop_leavesList _ r hr,
      layerLeaves_of_leaves _ (mk_of_leaves leaves ph)]
  simp [MerkleTree.mk_of]

theorem pyGet_none_iff (l : List Tree) (i : Int) :
    pyGet l i = none ↔ ((l.length : Int) ≤ i ∨ i < -(l.length : Int)) := by
  unfold pyGet
  by_cases h0 : 0 ≤ i
  · rw [if_pos h0, List.get?_eq_none]
    omega
  · rw [if_neg h0]
    by_cases h1 : i.natAbs ≤ l.length
    · rw [if_pos h1]
      have hlt : l.length - i.natAbs < l.length := by omega
      rw [List.get?_eq_get hlt]
      constructor
      · intro hfalse
        exact absurd hfalse (by simp)
      · intro hcase
        exfalso
        omega
    · rw [if_neg h1]
      simp only [true_iff]
      omega

theorem check_proof_cons (c0 : (ByteStr × Int) × Side) (rest : Chain) :
    check_proof (c0 :: rest)
      = (foldLink c0.1.1 rest.dropLast).bind
          (fun link =>
            if link = ((c0 :: rest).getLast (List.cons_ne_nil c0 rest)).1.1
            then some link else none) := by
  show (match foldLink c0.1.1 rest.dropLast with
        | none => none
        | some link =>
            if link = ((c0 :: rest).getLast (List.cons_ne_nil c0 rest)).1.1
            then some link else none) = _
  rcases foldLink c0.1.1 rest.dropLast with _ | x <;> simp

/-- C10: calling `build` on a tree with at least one leaf does not change the
leaves list itself: the same leaf nodes remain, in the same order and count
(the reduction works on the copy `self.leaves[::]`), `get_num_leaves` is
unchanged, and the built root enumerates exactly the stored leaves in
insertion order. -/
theorem build_frame_property (m m2 : MerkleTree) (h : m.build = some m2) :
    m2.leaves = m.leaves ∧ get_num_leaves m2 = get_num_leaves m ∧
      ∀ r, m2.root = some r → (∀ t ∈ m.leaves, t.isLeafT = true) →
        r.leavesList = m.leaves := by
  unfold MerkleTree.build at h
  rcases hb : buildLoop m.leaves with _ | r0
  · rw [hb] at h
    exact absurd h (by simp)
  · rw [hb] at h
    simp only [Option.some.injEq] at h
    subst h
    refine ⟨rfl, rfl, ?_⟩
    intro r hr hleaf
    simp only [Option.some.injEq] at hr
    subst hr
    rw [buildLoop_leavesList _ _ hb, layerLeaves_of_leaves _ hleaf]

theorem build_frame_property_witness :
    (MerkleTree.mk_of [(ByteStr.raw "a", 0), (ByteStr.raw "b", 1)] false).build
        = some { leaves := [Tree.leaf (ByteStr.sha (ByteStr.raw "a")) 0 (ByteStr.raw "a"),
                            Tree.leaf (ByteStr.sha (ByteStr.raw "b")) 1 (ByteStr.raw "b")],
                 root := some (Tree.node
                   (ByteStr.sha (ByteStr.cat (ByteStr.sha (ByteStr.raw "a"))
                     (ByteStr.sha (ByteStr.raw "b")))) 1
                   (Tree.leaf (ByteStr.sha (ByteStr.raw "a")) 0 (ByteStr.raw "a"))
                   (Tree.leaf (ByteStr.sha (ByteStr.raw "b")) 1 (ByteStr.raw "b"))) } ∧
    ({ leaves := [Tree.leaf (ByteStr.sha (ByteStr.raw "a")) 0 (ByteStr.raw "a"),
                  Tree.leaf (ByteStr.sha (ByteStr.raw "b")) 1 (ByteStr.raw "b")],
       root := some (Tree.node
         (ByteStr.sha (ByteStr.cat (ByteStr.sha (ByteStr.raw "a"))
           (ByteStr.sha (ByteStr.raw "b")))) 1
         (Tree.leaf (ByteStr.sha (ByteStr.raw "a")) 0 (ByteStr.raw "a"))
         (Tree.leaf (ByteStr.sha (ByteStr.raw "b")) 1 (ByteStr.raw "b"))) } : MerkleTree).leaves
      = (MerkleTree.mk_of [(ByteStr.raw "a", 0), (ByteStr.raw "b", 1)] false).leaves := by
  have hb : (MerkleTree.mk_of [(ByteStr.raw "a", 0), (ByteStr.raw "b", 1)] false).build
      = some { leaves := [Tree.leaf (ByteStr.sha (ByteStr.raw "a")) 0 (ByteStr.raw "a"),
                          Tree.leaf (ByteStr.sha (ByteStr.raw "b")) 1 (ByteStr.raw "b")],
               root := some (Tree.node
                 (ByteStr.sha (ByteStr.cat (ByteStr.sha (ByteStr.raw "a"))
                   (ByteStr.sha (ByteStr.raw "b")))) 1
                 (Tree.leaf (ByteStr.sha (ByteStr.raw "a")) 0 (ByteStr.raw "a"))
                 (Tree.leaf (ByteStr.sha (ByteStr.raw "b")) 1 (ByteStr.raw "b"))) } := by
    decide
  exact ⟨hb, (build_frame_property _ _ hb).1⟩

/-- C8 (amended): `build` fails (`EmptyTree`) exactly on an empty leaf
vector; `get_proof(i)` on a built tree with `n` leaves fails (an
`IndexError` from `self.leaves[index]`) exactly when `i ≥ n` or `i < -n` --
Python-style negative indices in `[-n, -1]` resolve from the end and
succeed, contrary to the claim that every `i < 0` fails.  No other failures
exist: both operations are otherwise total. -/
theorem error_conditions :
    (∀ (leaves : List (ByteStr × Int)) (ph : Bool),
        buildTree leaves ph = none ↔ leaves = []) ∧
    (∀ (leaves : List (ByteStr × Int)) (ph : Bool) (m : MerkleTree),
        buildTree leaves ph = some m → ∀ i : Int,
          (m.get_proof i = none ↔
            ((leaves.length : Int) ≤ i ∨ i < -(leaves.length : Int)))) := by
  constructor
  · intro leaves ph
    constructor
    · intro h
      by_contra hne
      have hne2 : (MerkleTree.mk_of leaves ph).leaves ≠ [] := by
        simp [MerkleTree.mk_of, hne]
      have hs := buildLoop_isSome _ hne2
      unfold buildTree MerkleTree.build at h
      rcases hb : buildLoop (MerkleTree.mk_of leaves ph).leaves with _ | r
      · rw [hb] at hs; simp at hs
      · rw [hb] at h; simp at h
    · intro h
      subst h
      rfl
  · intro leaves ph m hm i
    obtain ⟨hleq, r, hroot, hbl⟩ := buildTree_parts leaves ph m hm
    have hlen : m.leaves.length = leaves.length := by
      rw [hleq]; simp [MerkleTree.mk_of]
    unfold MerkleTree.get_proof
    rw [Option.map_eq_none', pyGet_none_iff, hlen]

/-- C8 counterexample: on the built one-leaf tree, `get_proof(-1)` succeeds
(Python resolves the index from the end), refuting the claim that every
`i < 0` fails with `IndexOutOfRange`. -/
theorem error_conditions_counterexample :
    ((buildTree [(ByteStr.raw "a", 0)] false).bind
      (fun m => m.get_proof (-1))).isSome = true := by
  decide

theorem error_conditions_witness :
    buildTree ([] : List (ByteStr × Int)) false = none ∧
    ({ leaves := [Tree.leaf (ByteStr.sha (ByteStr.raw "a")) 0 (ByteStr.raw "a")],
       root := some (Tree.leaf (ByteStr.sha (ByteStr.raw "a")) 0 (ByteStr.raw "a")) }
        : MerkleTree).get_proof 1 = none := by
  have hb : buildTree [(ByteStr.raw "a", 0)] false
      = some { leaves := [Tree.leaf (ByteStr.sha (ByteStr.raw "a")) 0 (ByteStr.raw "a")],
               root := some (Tree.leaf (ByteStr.sha (ByteStr.raw "a")) 0 (ByteStr.raw "a")) } := by
    decide
  refine ⟨(error_conditions.1 [] false).mpr rfl, ?_⟩
  exact (error_conditions.2 [(ByteStr.raw "a", 0)] false _ hb 1).mpr (by decide)

/-- C5: at each aggregation level with an odd node count the last node is
promoted unchanged (the level equals the reduction of the even prefix with
the detached tail appended, and the tail is passed through as-is); on the
concrete three-leaf tree over a, b, c the root digest is
`sha(sha(sha a || sha b) || sha c)` with index 2, and `get_proof(2)` has
exactly one sibling entry. -/
theorem odd_promotion :
    (∀ l : List Tree, l.length % 2 = 1 →
        buildLayer l = buildLayer l.dropLast ++ l.drop (l.length - 1) ∧
        (buildLayer l).getLast? = l.getLast?) ∧
    (buildTree [(ByteStr.raw "a", 0), (ByteStr.raw "b", 1), (ByteStr.raw "c", 2)]
        false).map
      (fun m => (m.root.map (fun r => (r.val, r.idx)), m.get_proof 2))
      = some
          (some (hash_function (ByteStr.cat
              (hash_function (ByteStr.cat (hash_function (ByteStr.raw "a"))
                (hash_function (ByteStr.raw "b"))))
              (hash_function (ByteStr.raw "c"))), 2),
           some [((hash_function (ByteStr.raw "c"), 2), Side.SELF),
                 ((hash_function (ByteStr.cat (hash_function (ByteStr.raw "a"))
                     (hash_function (ByteStr.raw "b"))), 1), Side.L),
                 ((hash_function (ByteStr.cat
                     (hash_function (ByteStr.cat (hash_function (ByteStr.raw "a"))
                       (hash_function (ByteStr.raw "b"))))
                     (hash_function (ByteStr.raw "c"))), 2), Side.ROOT)]) := by
  constructor
  · intro l h
    have hne : l ≠ [] := by intro he; rw [he] at h; simp at h
    have hc : ¬(l.dropLast.length % 2 = 1) := by
      rw [List.length_dropLast]
      omega
    constructor
    · have h1 : buildLayer l = pairAdj l.dropLast ++ l.drop (l.length - 1) := by
        unfold buildLayer
        rw [if_pos h]
      have h2 : buildLayer l.dropLast = pairAdj l.dropLast := by
        unfold buildLayer
        rw [if_neg hc]
      rw [h1, h2]
    · unfold buildLayer
      rw [if_pos h]
      have hdrop := drop_length_sub_one l.dropLast (l.getLast hne)
      rw [List.dropLast_append_getLast hne] at hdrop
      rw [hdrop, List.getLast?_append]
      simp [List.getLast?_eq_getLast l hne]
  · decide

theorem odd_promotion_witness :
    buildLayer [Tree.leaf (ByteStr.sha (ByteStr.raw "a")) 0 (ByteStr.raw "a"),
                Tree.leaf (ByteStr.sha (ByteStr.raw "b")) 1 (ByteStr.raw "b"),
                Tree.leaf (ByteStr.sha (ByteStr.raw "c")) 2 (ByteStr.raw "c")]
        = buildLayer ([Tree.leaf (ByteStr.sha (ByteStr.raw "a")) 0 (ByteStr.raw "a"),
                Tree.leaf (ByteStr.sha (ByteStr.raw "b")) 1 (ByteStr.raw "b"),
                Tree.leaf (ByteStr.sha (ByteStr.raw "c")) 2 (ByteStr.raw "c")] : List Tree).dropLast
            ++ ([Tree.leaf (ByteStr.sha (ByteStr.raw "a")) 0 (ByteStr.raw "a"),
                Tree.leaf (ByteStr.sha (ByteStr.raw "b")) 1 (ByteStr.raw "b"),
                Tree.leaf (ByteStr.sha (ByteStr.raw "c")) 2 (ByteStr.raw "c")] : List Tree).drop
                (([Tree.leaf (ByteStr.sha (ByteStr.raw "a")) 0 (ByteStr.raw "a"),
                Tree.leaf (ByteStr.sha (ByteStr.raw "b")) 1 (ByteStr.raw "b"),
                Tree.leaf (ByteStr.sha (ByteStr.raw "c")) 2 (ByteStr.raw "c")] : List Tree).length - 1) := by
  exact (odd_promotion.1 _ (by decide)).1

/-- C3: for every IMT built from a non-empty leaf sequence and every
in-range position `i`, the single-chain check on `get_proof(i)` succeeds and
returns the root digest. -/
theorem proof_soundness (leaves : List (ByteStr × Int)) (ph : Bool)
    (m : MerkleTree) (h : buildTree leaves ph = some m) (i : Nat)
    (hi : i < leaves.length) :
    ∃ r c, m.root = some r ∧ m.get_proof_nat i = some c ∧
      check_proof c = some r.val := by
  obtain ⟨hleq, r, hroot, hbl⟩ := buildTree_parts leaves ph m h
  have hlen : m.leaves.length = leaves.length := by
    rw [hleq]; simp [MerkleTree.mk_of]
  have hok : r.hashOk = true := by
    refine buildLoop_hashOk _ ?_ r (hleq ▸ hbl)
    rw [hleq]
    intro t ht
    simp only [MerkleTree.mk_of, List.mem_map] at ht
    obtain ⟨p, _, hp⟩ := ht
    exact hp ▸ mkLeaf_hashOk p.1 p.2 ph
  have hcount : i < r.leafCount := by
    rw [buildLoop_leafCount leaves ph r (hleq ▸ hbl)]
    exact hi
  have hpy : pyGet m.leaves (i : Int) = some (m.leaves.get ⟨i, by omega⟩) := by
    unfold pyGet
    rw [if_pos (by omega)]
    rw [Int.toNat_natCast]
    exact List.get?_eq_get (by omega)
  refine ⟨r, chainOf r i, hroot, ?_, ?_⟩
  · unfold MerkleTree.get_proof_nat MerkleTree.get_proof
    rw [hpy, hroot]
    simp [pyPos]
  · unfold chainOf
    rw [check_proof_cons]
    have hdl : (r.proofSibs i ++ [((r.val, r.idx), Side.ROOT)]).dropLast
        = r.proofSibs i := List.dropLast_concat
    rw [hdl, foldLink_proofSibs r i hok hcount]
    have hgl : ((((r.leafAt i).val, (r.leafAt i).idx), Side.SELF) ::
          (r.proofSibs i ++ [((r.val, r.idx), Side.ROOT)])).getLast
          (List.cons_ne_nil _ _) = ((r.val, r.idx), Side.ROOT) := by
      apply getLast_eq_of_getLast?_eq
      rw [show ((((r.leafAt i).val, (r.leafAt i).idx), Side.SELF) ::
            (r.proofSibs i ++ [((r.val, r.idx), Side.ROOT)]))
          = ((((r.leafAt i).val, (r.leafAt i).idx), Side.SELF) :: r.proofSibs i)
            ++ [((r.val, r.idx), Side.ROOT)] by simp, List.getLast?_concat]
    rw [hgl]
    simp

theorem proof_soundness_witness :
    ∃ r c,
      ({ leaves := [Tree.leaf (ByteStr.sha (ByteStr.raw "a")) 0 (ByteStr.raw "a"),
                    Tree.leaf (ByteStr.sha (ByteStr.raw "b")) 1 (ByteStr.raw "b")],
         root := some (Tree.node
           (ByteStr.sha (ByteStr.cat (ByteStr.sha (ByteStr.raw "a"))
             (ByteStr.sha (ByteStr.raw "b")))) 1
           (Tree.leaf (ByteStr.sha (ByteStr.raw "a")) 0 (ByteStr.raw "a"))
           (Tree.leaf (ByteStr.sha (ByteStr.raw "b")) 1 (ByteStr.raw "b"))) }
          : MerkleTree).root = some r ∧
      ({ leaves := [Tree.leaf (ByteStr.sha (ByteStr.raw "a")) 0 (ByteStr.raw "a"),
                    Tree.leaf (ByteStr.sha (ByteStr.raw "b")) 1 (ByteStr.raw "b")],
         root := some (Tree.node
           (ByteStr.sha (ByteStr.cat (ByteStr.sha (ByteStr.raw "a"))
             (ByteStr.sha (ByteStr.raw "b")))) 1
           (Tree.leaf (ByteStr.sha (ByteStr.raw "a")) 0 (ByteStr.raw "a"))
           (Tree.leaf (ByteStr.sha (ByteStr.raw "b")) 1 (ByteStr.raw "b"))) }
          : MerkleTree).get_proof_nat 0 = some c ∧
      check_proof c = some r.val := by
  refine proof_soundness [(ByteStr.raw "a", 0), (ByteStr.raw "b", 1)] false _ ?_ 0 (by decide)
  decide

/-- C7 (amended): for proof chains with at least two entries,
`join_chains(low, high)` fails with `DisjointChains` exactly when the pivot
entries `low[-1][0]` and `high[0][0]` differ (the code compares the whole
`(digest, idx)` pair, not only the digest); and if `low` verifies, `high`
verifies and the pivots agree, then the join succeeds and its result
verifies, returning `high`'s root digest.  The converse direction of the
claimed equivalence is false (see the counterexample): verification of the
joined chain never inspects `low[-1]` or `high[0]`, so it can succeed when
`low` does not verify. -/
theorem join_law (low high : Chain) (hlow : 2 ≤ low.length)
    (hhigh : 2 ≤ high.length) :
    (join_chains low high = none ↔
      low.getLast?.map Prod.fst ≠ high.head?.map Prod.fst) ∧
    (∀ x y, check_proof low = some x → check_proof high = some y →
      low.getLast?.map Prod.fst = high.head?.map Prod.fst →
      ∃ j, join_chains low high = some j ∧ check_proof j = some y) := by
  match low, high with
  | l0 :: l1 :: lrest, h0 :: h1 :: hrest =>
    have hlne : (l1 :: lrest) ≠ [] := List.cons_ne_nil _ _
    have hhne : (h1 :: hrest) ≠ [] := List.cons_ne_nil _ _
    have hlast : (l0 :: l1 :: lrest).getLast? =
        some ((l1 :: lrest).getLast hlne) := by
      rw [List.getLast?_eq_getLast _ (List.cons_ne_nil _ _),
          List.getLast_cons hlne]
    constructor
    · unfold join_chains
      rw [hlast]
      simp only [List.head?_cons, Option.map_some]
      by_cases hp : ((l1 :: lrest).getLast hlne).1 = h0.1
      · rw [if_pos hp]
        simp [hp]
      · rw [if_neg hp]
        simp [hp]
    · intro x y hx hy hpiv
      rw [hlast] at hpiv
      simp only [List.head?_cons, Option.map_some', Option.some.injEq] at hpiv
      rw [check_proof_cons] at hx hy
      rcases hfx : foldLink l0.1.1 (l1 :: lrest).dropLast with _ | xv
      · rw [hfx] at hx; simp at hx
      rcases hfy : foldLink h0.1.1 (h1 :: hrest).dropLast with _ | yv
      · rw [hfy] at hy; simp at hy
      rw [hfx] at hx
      rw [hfy] at hy
      simp only [Option.some_bind] at hx hy
      split at hx
      case isFalse => simp at hx
      case isTrue hxeq =>
      split at hy
      case isFalse => simp at hy
      case isTrue hyeq =>
      simp only [Option.some.injEq] at hx hy
      subst hx
      subst hy
      have hglc : (l0 :: l1 :: lrest).getLast (List.cons_ne_nil _ _)
          = (l1 :: lrest).getLast hlne := List.getLast_cons hlne
      refine ⟨(l0 :: l1 :: lrest).dropLast ++ (h1 :: hrest), ?_, ?_⟩
      · unfold join_chains
        rw [hlast]
        simp only [List.head?_cons]
        rw [if_pos hpiv]
        rfl
      · have hdl : (l0 :: l1 :: lrest).dropLast = l0 :: (l1 :: lrest).dropLast := rfl
        rw [hdl, List.cons_append]
        rw [check_proof_cons]
        have hdl2 : ((l1 :: lrest).dropLast ++ h1 :: hrest).dropLast
            = (l1 :: lrest).dropLast ++ (h1 :: hrest).dropLast :=
          List.dropLast_append_of_ne_nil _ hhne
        rw [hdl2, foldLink_append, hfx]
        simp only [Option.some_bind]
        have hxv : xv = h0.1.1 := by
          rw [hxeq, hglc, hpiv]
        rw [hxv, hfy]
        simp only [Option.some_bind]
        have hglj : (l0 :: ((l1 :: lrest).dropLast ++ h1 :: hrest)).getLast
            (List.cons_ne_nil _ _) = (h1 :: hrest).getLast hhne := by
          apply getLast_eq_of_getLast?_eq
          rw [List.getLast?_eq_getLast _ (List.cons_ne_nil _ _),
              List.getLast_cons (by simp), Option.some.injEq]
          have : ((l1 :: lrest).dropLast ++ h1 :: hrest).getLast (by simp)
              = (h1 :: hrest).getLast hhne := by
            rw [List.getLast_append]
            simp
          exact this
        rw [hglj]
        have hyv : yv = ((h1 :: hrest).getLast hhne).1.1 := by
          rw [hyeq, List.getLast_cons hhne]
        rw [if_pos hyv]

theorem join_law_counterexample :
    (((join_chains
        [((ByteStr.sha (ByteStr.raw "a"), 0), Side.SELF),
         ((ByteStr.sha (ByteStr.raw "b"), 0), Side.ROOT)]
        [((ByteStr.sha (ByteStr.raw "b"), 0), Side.SELF),
         ((ByteStr.sha (ByteStr.raw "a"), 0), Side.ROOT)]).bind
      check_proof).isSome = true) ∧
    check_proof [((ByteStr.sha (ByteStr.raw "a"), 0), Side.SELF),
                 ((ByteStr.sha (ByteStr.raw "b"), 0), Side.ROOT)] = none := by
  decide

theorem join_law_witness :
    ∃ j, join_chains
        [((ByteStr.sha (ByteStr.raw "a"), 0), Side.SELF),
         ((ByteStr.sha (ByteStr.raw "b"), 1), Side.R),
         ((ByteStr.sha (ByteStr.cat (ByteStr.sha (ByteStr.raw "a"))
            (ByteStr.sha (ByteStr.raw "b"))), 1), Side.ROOT)]
        [((ByteStr.sha (ByteStr.cat (ByteStr.sha (ByteStr.raw "a"))
            (ByteStr.sha (ByteStr.raw "b"))), 1), Side.SELF),
         ((ByteStr.sha (ByteStr.raw "c"), 2), Side.R),
         ((ByteStr.sha (ByteStr.cat
            (ByteStr.sha (ByteStr.cat (ByteStr.sha (ByteStr.raw "a"))
              (ByteStr.sha (ByteStr.raw "b"))))
            (ByteStr.sha (ByteStr.raw "c"))), 2), Side.ROOT)] = some j ∧
      check_proof j = some (ByteStr.sha (ByteStr.cat
        (ByteStr.sha (ByteStr.cat (ByteStr.sha (ByteStr.raw "a"))
          (ByteStr.sha (ByteStr.raw "b"))))
        (ByteStr.sha (ByteStr.raw "c")))) := by
  exact (join_law _ _ (by decide) (by decide)).2
    (ByteStr.sha (ByteStr.cat (ByteStr.sha (ByteStr.raw "a"))
      (ByteStr.sha (ByteStr.raw "b"))))
    (ByteStr.sha (ByteStr.cat
      (ByteStr.sha (ByteStr.cat (ByteStr.sha (ByteStr.raw "a"))
        (ByteStr.sha (ByteStr.raw "b"))))
      (ByteStr.sha (ByteStr.raw "c"))))
    (by decide) (by decide) (by decide)

theorem subtreesAux_pred (P : Tree → Prop)
    (hch : ∀ v i l r, P (Tree.node v i l r) → P l ∧ P r) :
    ∀ (t : Tree) (c : Nat), P t → ∀ s ∈ subtreesAux t c, P s
  | t, 0, ht, s, hs => by
      simp only [subtreesAux, List.mem_singleton] at hs
      exact hs ▸ ht
  | .leaf v i d, c + 1, ht, s, hs => by
      simp only [subtreesAux, List.mem_singleton] at hs
      exact hs ▸ ht
  | .node v i l r, c + 1, ht, s, hs => by
      simp only [subtreesAux, List.mem_cons] at hs
      rcases hs with h1 | h2
      · exact h1 ▸ (hch v i l r ht).1
      · exact subtreesAux_pred P hch r _ (hch v i l r ht).2 s h2

theorem foldl_mk_pred (P : Tree → Prop)
    (hmk : ∀ a b, P a → P b → P (mkNode a b)) :
    ∀ (l : List Tree) (x : Tree), (∀ s ∈ l, P s) → P x →
      P (l.foldl (fun acc s => mkNode s acc) x)
  | [], x, _, hx => hx
  | s :: rest, x, hl, hx =>
      foldl_mk_pred P hmk rest (mkNode s x)
        (fun u hu => hl u (by simp [hu]))
        (hmk s x (hl s (by simp)) hx)

theorem adjustFold_pred (P : Tree → Prop)
    (hmk : ∀ a b, P a → P b → P (mkNode a b))
    (subs : List Tree) (x : Tree) (hs : ∀ s ∈ subs, P s) (hx : P x) :
    P (adjustFold subs x) := by
  unfold adjustFold
  exact foldl_mk_pred P hmk subs.reverse x
    (fun u hu => hs u (List.mem_reverse.mp hu)) hx

theorem idxOk_children (v : ByteStr) (i : Int) (l r : Tree)
    (h : (Tree.node v i l r).idxOk = true) : l.idxOk = true ∧ r.idxOk = true := by
  simp only [Tree.idxOk, Bool.and_eq_true] at h
  exact ⟨h.1.2, h.2⟩

theorem idxOk_nodes : ∀ t : Tree, t.idxOk = true →
    ∀ u ∈ t.nodesList, u.idxOk = true
  | .leaf v i d, ht, u, hu => by
      simp only [Tree.nodesList, List.mem_singleton] at hu
      exact hu ▸ ht
  | .node v i l r, ht, u, hu => by
      simp only [Tree.nodesList, List.mem_cons, List.mem_append] at hu
      rcases hu with h1 | h2 | h3
      · exact h1 ▸ ht
      · exact idxOk_nodes l (idxOk_children v i l r ht).1 u h2
      · exact idxOk_nodes r (idxOk_children v i l r ht).2 u h3

theorem idxOk_maxLeaf : ∀ t : Tree, t.idxOk = true → t.idx = t.maxLeafIdx
  | .leaf v i d, _ => rfl
  | .node v i l r, ht => by
      have hch := idxOk_children v i l r ht
      have hi : i = max l.idx r.idx := by
        simp only [Tree.idxOk, Bool.and_eq_true, decide_eq_true_eq] at ht
        exact ht.1.1
      show i = max l.maxLeafIdx r.maxLeafIdx
      rw [hi, idxOk_maxLeaf l hch.1, idxOk_maxLeaf r hch.2]

theorem buildLoop_idxOk (l : List Tree) (h : ∀ t ∈ l, t.idxOk = true)
    (r : Tree) (hr : buildLoop l = some r) : r.idxOk = true :=
  buildLoop_pred (fun t => t.idxOk = true)
    (fun a b ha hb => by
      show (mkNode a b).idxOk = true
      rw [idxOk_mkNode]
      rw [show a.idxOk = true from ha, show b.idxOk = true from hb]
      rfl) l h r hr

/-- C6: after `build`, every node `v` of the IMT satisfies the index
aggregation invariant -- internal nodes carry `max(v.left.idx, v.right.idx)`
(`Tree.idxOk`), equivalently every subtree carries the maximum over the
indices of its leaves -- and a subsequent `add_adjust` preserves it: the new
parents take the max of their children, and all reused subtrees keep the
invariant. -/
theorem index_aggregation :
    (∀ (leaves : List (ByteStr × Int)) (ph : Bool) (m : MerkleTree)
        (r : Tree), buildTree leaves ph = some m → m.root = some r →
        r.idxOk = true ∧ ∀ u ∈ r.nodesList, u.idx = u.maxLeafIdx) ∧
    (∀ (m : MerkleTree) (r : Tree), m.root = some r → r.idxOk = true →
        ∀ (d : ByteStr × Int) (ph : Bool) (r2 : Tree),
          (m.add_adjust d ph).root = some r2 →
          r2.idxOk = true ∧ ∀ u ∈ r2.nodesList, u.idx = u.maxLeafIdx) := by
  constructor
  · intro leaves ph m r hm hroot
    obtain ⟨hleq, r0, hroot0, hbl⟩ := buildTree_parts leaves ph m hm
    rw [hroot0] at hroot
    simp only [Option.some.injEq] at hroot
    rw [hroot] at hbl
    have hok : r.idxOk = true := by
      refine buildLoop_idxOk _ ?_ r hbl
      intro t ht
      simp only [MerkleTree.mk_of, List.mem_map] at ht
      obtain ⟨p, _, hp⟩ := ht
      exact hp ▸ mkLeaf_idxOk p.1 p.2 ph
    exact ⟨hok, fun u hu => idxOk_maxLeaf u (idxOk_nodes r hok u hu)⟩
  · intro m r hroot hok d ph r2 hr2
    unfold MerkleTree.add_adjust at hr2
    rw [hroot] at hr2
    simp only [Option.some.injEq] at hr2
    subst hr2
    have hok2 : (adjustFold (subtreesAux r (looseOf m.leaves.length))
        (mkLeaf d.1 d.2 ph)).idxOk = true := by
      refine adjustFold_pred (fun t => t.idxOk = true) ?_ _ _ ?_
        (mkLeaf_idxOk d.1 d.2 ph)
      · intro a b ha hb
        show (mkNode a b).idxOk = true
        rw [idxOk_mkNode]
        rw [show a.idxOk = true from ha, show b.idxOk = true from hb]
        rfl
      · exact subtreesAux_pred (fun t => t.idxOk = true)
          (fun v i l rr h => idxOk_children v i l rr h) r _ hok
    exact ⟨hok2, fun u hu => idxOk_maxLeaf u (idxOk_nodes _ hok2 u hu)⟩

theorem index_aggregation_witness :
    (Tree.node (ByteStr.sha (ByteStr.cat (ByteStr.sha (ByteStr.raw "a"))
        (ByteStr.sha (ByteStr.raw "b")))) 1
      (Tree.leaf (ByteStr.sha (ByteStr.raw "a")) 0 (ByteStr.raw "a"))
      (Tree.leaf (ByteStr.sha (ByteStr.raw "b")) 1 (ByteStr.raw "b"))).idxOk
        = true ∧
    ∀ u ∈ (Tree.node (ByteStr.sha (ByteStr.cat (ByteStr.sha (ByteStr.raw "a"))
        (ByteStr.sha (ByteStr.raw "b")))) 1
      (Tree.leaf (ByteStr.sha (ByteStr.raw "a")) 0 (ByteStr.raw "a"))
      (Tree.leaf (ByteStr.sha (ByteStr.raw "b")) 1 (ByteStr.raw "b"))).nodesList,
      u.idx = u.maxLeafIdx := by
  refine index_aggregation.1 [(ByteStr.raw "a", 0), (ByteStr.raw "b", 1)] false
    { leaves := [Tree.leaf (ByteStr.sha (ByteStr.raw "a")) 0 (ByteStr.raw "a"),
                 Tree.leaf (ByteStr.sha (ByteStr.raw "b")) 1 (ByteStr.raw "b")],
      root := some (Tree.node (ByteStr.sha (ByteStr.cat
          (ByteStr.sha (ByteStr.raw "a")) (ByteStr.sha (ByteStr.raw "b")))) 1
        (Tree.leaf (ByteStr.sha (ByteStr.raw "a")) 0 (ByteStr.raw "a"))
        (Tree.leaf (ByteStr.sha (ByteStr.raw "b")) 1 (ByteStr.raw "b"))) }
    _ (by decide) rfl

theorem subtreesAux_zero (t : Tree) : subtreesAux t 0 = [t] := by
  cases t <;> rfl

theorem subtreesAux_leaf (v : ByteStr) (i : Int) (d : ByteStr) (c : Nat) :
    subtreesAux (Tree.leaf v i d) c = [Tree.leaf v i d] := by
  cases c <;> rfl

theorem subtreesAux_node (v : ByteStr) (i : Int) (l r : Tree) (c : Nat)
    (hc : c ≠ 0) :
    subtreesAux (Tree.node v i l r) c
      = l :: subtreesAux r (c - 2 ^ intLog2 c) := by
  obtain ⟨c2, rfl⟩ := Nat.exists_eq_succ_of_ne_zero hc
  rfl

theorem adjustFold_cons (s : Tree) (rest : List Tree) (x : Tree) :
    adjustFold (s :: rest) x = mkNode s (adjustFold rest x) := by
  unfold adjustFold
  rw [List.reverse_cons, List.foldl_append]
  rfl

theorem adjustFold_concat (subs : List Tree) (o x : Tree) :
    adjustFold (subs ++ [o]) x = adjustFold subs (mkNode o x) := by
  unfold adjustFold
  rw [List.reverse_append]
  rfl

/-- Well-formedness of the right spine with respect to the loose-leaf
counter: the descent of `_get_whole_subtrees` only meets internal nodes
while the counter is non-zero.  Built trees satisfy it
(`buildLoop_append`). -/
inductive SpineOk : Tree → Nat → Prop where
  | zero (t : Tree) : SpineOk t 0
  | step (v : ByteStr) (i : Int) (l r : Tree) (c : Nat) (hc : c ≠ 0)
      (h : SpineOk r (c - 2 ^ intLog2 c)) : SpineOk (Tree.node v i l r) c

/-- Halving the leaf count leaves the whole-subtree descent unchanged: the
counter pattern scales by two per level. -/
theorem subtreesAux_two_mul : ∀ (t : Tree) (k : Nat),
    subtreesAux t (2 * k) = subtreesAux t k
  | t, 0 => rfl
  | .leaf v i d, k + 1 => by rw [subtreesAux_leaf, subtreesAux_leaf]
  | .node v i l r, k + 1 => by
      rw [subtreesAux_node v i l r (2 * (k + 1)) (by omega),
          subtreesAux_node v i l r (k + 1) (by omega)]
      have hlog := intLog2_two_mul (k + 1) (by omega)
      have hle := two_pow_intLog2_le (k + 1) (by omega)
      have harith : 2 * (k + 1) - 2 ^ intLog2 (2 * (k + 1))
          = 2 * ((k + 1) - 2 ^ intLog2 (k + 1)) := by
        rw [hlog, pow_succ]
        omega
      rw [harith, subtreesAux_two_mul r ((k + 1) - 2 ^ intLog2 (k + 1))]

theorem SpineOk_two_mul (t : Tree) (k : Nat) (h : SpineOk t k) :
    SpineOk t (2 * k) := by
  induction h with
  | zero t => exact SpineOk.zero t
  | step v i l r c hc hs ih =>
      refine SpineOk.step v i l r (2 * c) (by omega) ?_
      have hlog := intLog2_two_mul c hc
      have hle := two_pow_intLog2_le c hc
      have harith : 2 * c - 2 ^ intLog2 (2 * c) = 2 * (c - 2 ^ intLog2 c) := by
        rw [hlog, pow_succ]
        omega
      rw [harith]
      exact ih

/-- The whole-subtree list of the adjusted tree: folding the new node under
the spine appends it as one more whole subtree, and the descent of the new
tree (with the doubled-plus-one counter) recovers exactly the old subtrees
followed by the new node. -/
theorem spine_adjust (r : Tree) (c : Nat) (h : SpineOk r c) :
    ∀ x : Tree,
      subtreesAux (adjustFold (subtreesAux r c) x) (2 * c + 1)
          = subtreesAux r c ++ [x] ∧
        SpineOk (adjustFold (subtreesAux r c) x) (2 * c + 1) := by
  induction h with
  | zero t =>
      intro x
      rw [subtreesAux_zero, adjustFold_cons]
      have hA : adjustFold [] x = x := rfl
      rw [hA]
      constructor
      · show subtreesAux (Tree.node _ _ t x) 1 = [t, x]
        rw [subtreesAux_node _ _ t x 1 (by omega)]
        have h1 : 1 - 2 ^ intLog2 1 = 0 := rfl
        rw [h1, subtreesAux_zero]
      · exact SpineOk.step _ _ t x 1 (by omega)
          (by rw [show 1 - 2 ^ intLog2 1 = 0 from rfl]; exact SpineOk.zero x)
  | step v i l rr c hc hs ih =>
      intro x
      have hT := subtreesAux_node v i l rr c hc
      rw [hT, adjustFold_cons]
      have hle := two_pow_intLog2_le c hc
      have hlog := intLog2_two_mul_add_one c hc
      have harith : 2 * c + 1 - 2 ^ intLog2 (2 * c + 1)
          = 2 * (c - 2 ^ intLog2 c) + 1 := by
        rw [hlog, pow_succ]
        omega
      obtain ⟨ih1, ih2⟩ := ih x
      constructor
      · show subtreesAux (Tree.node _ _ l
            (adjustFold (subtreesAux rr (c - 2 ^ intLog2 c)) x)) (2 * c + 1) = _
        rw [subtreesAux_node _ _ _ _ (2 * c + 1) (by omega), harith, ih1]
        rfl
      · exact SpineOk.step _ _ l _ (2 * c + 1) (by omega) (by rw [harith]; exact ih2)

theorem pairAdj_append_even :
    ∀ (a b2 : List Tree), a.length % 2 = 0 →
      pairAdj (a ++ b2) = pairAdj a ++ pairAdj b2
  | [], b2, _ => rfl
  | [x], b2, h => by simp at h
  | x :: y :: rest, b2, h => by
      show mkNode x y :: pairAdj (rest ++ b2)
          = (mkNode x y :: pairAdj rest) ++ pairAdj b2
      rw [pairAdj_append_even rest b2 (by simp only [List.length_cons] at h; omega)]
      rfl

theorem buildLayer_even (l : List Tree) (h : l.length % 2 = 0) :
    buildLayer l = pairAdj l := by
  unfold buildLayer
  rw [if_neg (by omega)]

theorem buildLayer_odd (l : List Tree) (h : l.length % 2 = 1) (hne : l ≠ []) :
    buildLayer l = pairAdj l.dropLast ++ [l.getLast hne] := by
  unfold buildLayer
  rw [if_pos h]
  have hdrop := drop_length_sub_one l.dropLast (l.getLast hne)
  rw [List.dropLast_append_getLast hne] at hdrop
  rw [hdrop]

/-- The heart of append equivalence: appending one element to any layer and
rebuilding gives exactly the `add_adjust` fold of the whole subtrees of the
old root, and the old root satisfies the spine well-formedness for its
loose-leaf counter. -/
theorem buildLoop_append :
    ∀ (l : List Tree) (r : Tree), buildLoop l = some r →
      (∀ y : Tree, buildLoop (l ++ [y])
          = some (adjustFold (subtreesAux r (looseOf l.length)) y)) ∧
      SpineOk r (looseOf l.length)
  | [], r, hr => by simp [buildLoop, buildLoopFuel] at hr
  | [t], r, hr => by
      simp only [buildLoop, buildLoopFuel, Option.some.injEq] at hr
      subst hr
      have hl1 : looseOf 1 = 0 := rfl
      constructor
      · intro y
        have h1 : buildLoop ([t] ++ [y]) = some (mkNode t y) := by
          show buildLoopFuel 2 [t, y] = some (mkNode t y)
          show buildLoopFuel 1 (buildLayer [t, y]) = some (mkNode t y)
          rw [buildLayer_even [t, y] (by simp)]
          rfl
        rw [h1]
        show some (mkNode t y) = some (adjustFold (subtreesAux t (looseOf 1)) y)
        rw [hl1, subtreesAux_zero, adjustFold_cons]
        rfl
      · show SpineOk t (looseOf 1)
        rw [hl1]
        exact SpineOk.zero t
  | a :: b :: rest, r, hr => by
      rw [buildLoop_step] at hr
      have hlen : (a :: b :: rest).length = rest.length + 2 := by simp
      by_cases hpar : (rest.length + 2) % 2 = 0
      · -- even number of nodes on this layer
        have hlay : buildLayer (a :: b :: rest) = pairAdj (a :: b :: rest) :=
          buildLayer_even _ (by rw [hlen]; omega)
        rw [hlay] at hr
        obtain ⟨HP1, HP2⟩ := buildLoop_append (pairAdj (a :: b :: rest)) r hr
        have hplen : (pairAdj (a :: b :: rest)).length
            = (rest.length + 2) / 2 := by
          rw [pairAdj_length, hlen]
        have hk2 : (rest.length + 2) / 2 ≠ 0 := by omega
        have hlo : looseOf (rest.length + 2)
            = 2 * looseOf ((rest.length + 2) / 2) := by
          have h2 : rest.length + 2 = 2 * ((rest.length + 2) / 2) := by omega
          calc looseOf (rest.length + 2)
              = looseOf (2 * ((rest.length + 2) / 2)) := by rw [← h2]
            _ = 2 * looseOf ((rest.length + 2) / 2) := looseOf_two_mul _ hk2
        rw [hplen] at HP1 HP2
        constructor
        · intro y
          have hodd2 : (a :: b :: (rest ++ [y])).length % 2 = 1 := by
            simp only [List.length_cons, List.length_append, List.length_nil]
            omega
          have hne2 : (a :: b :: (rest ++ [y])) ≠ [] := by simp
          have hgl : (a :: b :: (rest ++ [y])).getLast hne2 = y := by
            apply getLast_eq_of_getLast?_eq
            rw [show (a :: b :: (rest ++ [y])) = (a :: b :: rest) ++ [y] by simp]
            exact List.getLast?_concat _
          have hdl3 : (a :: b :: (rest ++ [y])).dropLast = a :: b :: rest := by
            rw [show (a :: b :: (rest ++ [y])) = (a :: b :: rest) ++ [y] by simp]
            exact List.dropLast_concat
          have hlay2 : buildLayer (a :: b :: (rest ++ [y]))
              = pairAdj (a :: b :: rest) ++ [y] := by
            rw [buildLayer_odd _ hodd2 hne2, hdl3, hgl]
          show buildLoop (a :: b :: (rest ++ [y]))
              = some (adjustFold (subtreesAux r (looseOf (a :: b :: rest).length)) y)
          rw [buildLoop_step, hlay2, HP1 y, hlen, hlo, subtreesAux_two_mul]
        · show SpineOk r (looseOf (a :: b :: rest).length)
          rw [hlen, hlo]
          exact SpineOk_two_mul _ _ HP2
      · -- odd number of nodes: the last element is promoted
        have hodd : (rest.length + 2) % 2 = 1 := by omega
        have hne : (a :: b :: rest) ≠ [] := by simp
        have hlay : buildLayer (a :: b :: rest)
            = pairAdj (a :: b :: rest).dropLast
              ++ [(a :: b :: rest).getLast hne] :=
          buildLayer_odd _ (by rw [hlen]; omega) hne
        rw [hlay] at hr
        have hBlen : (a :: b :: rest).dropLast.length = rest.length + 1 := by
          simp [List.length_dropLast]
        have hplen : (pairAdj (a :: b :: rest).dropLast).length
            = (rest.length + 1) / 2 := by
          rw [pairAdj_length, hBlen]
        have hkne : (rest.length + 1) / 2 ≠ 0 := by omega
        have hPne : pairAdj (a :: b :: rest).dropLast ≠ [] := by
          intro he
          rw [he] at hplen
          simp at hplen
          omega
        rcases hbp : buildLoop (pairAdj (a :: b :: rest).dropLast) with _ | rP
        · have hs := buildLoop_isSome _ hPne
          rw [hbp] at hs
          simp at hs
        obtain ⟨HQ1, HQ2⟩ := buildLoop_append (pairAdj (a :: b :: rest).dropLast) rP hbp
        rw [hplen] at HQ1 HQ2
        have hEq := HQ1 ((a :: b :: rest).getLast hne)
        rw [hr] at hEq
        simp only [Option.some.injEq] at hEq
        have hlopn : looseOf (rest.length + 2)
            = 2 * looseOf ((rest.length + 1) / 2) + 1 := by
          have h2 : rest.length + 2 = 2 * ((rest.length + 1) / 2) + 1 := by omega
          calc looseOf (rest.length + 2)
              = looseOf (2 * ((rest.length + 1) / 2) + 1) := by rw [← h2]
            _ = 2 * looseOf ((rest.length + 1) / 2) + 1 :=
                looseOf_two_mul_add_one _ hkne
        have hsp := spine_adjust rP (looseOf ((rest.length + 1) / 2)) HQ2
            ((a :: b :: rest).getLast hne)
        constructor
        · intro y
          have heven2 : (a :: b :: (rest ++ [y])).length % 2 = 0 := by
            simp only [List.length_cons, List.length_append, List.length_nil]
            omega
          have hsplit : a :: b :: (rest ++ [y])
              = (a :: b :: rest).dropLast
                ++ ([(a :: b :: rest).getLast hne] ++ [y]) := by
            rw [← List.append_assoc, List.dropLast_append_getLast hne]
            simp
          have hlay2 : buildLayer (a :: b :: (rest ++ [y]))
              = pairAdj (a :: b :: rest).dropLast
                ++ [mkNode ((a :: b :: rest).getLast hne) y] := by
            rw [buildLayer_even _ heven2, hsplit,
                pairAdj_append_even _ _ (by rw [hBlen]; omega)]
            rfl
          show buildLoop (a :: b :: (rest ++ [y]))
              = some (adjustFold (subtreesAux r (looseOf (a :: b :: rest).length)) y)
          rw [buildLoop_step, hlay2,
              HQ1 (mkNode ((a :: b :: rest).getLast hne) y), hlen, hlopn, hEq,
              hsp.1, adjustFold_concat]
        · show SpineOk r (looseOf (a :: b :: rest).length)
          rw [hlen, hlopn, hEq]
          exact hsp.2
termination_by l => l.length
decreasing_by
  all_goals rw [pairAdj_length]
  all_goals simp only [List.length_dropLast, List.length_cons]
  all_goals omega

/-- C1: for every non-empty leaf sequence `S` and appended leaf `x`, the IMT
built from `S ++ [x]` has the same root -- the same node, hence the same
digest and the same index -- as building from `S` and then calling
`add_adjust(x)`. -/
theorem append_adjust_equivalence (S : List (ByteStr × Int))
    (x : ByteStr × Int) (ph : Bool) (hS : S ≠ []) :
    ∃ m m2, buildTree S ph = some m ∧ buildTree (S ++ [x]) ph = some m2 ∧
      ∃ r2 ra, m2.root = some r2 ∧ (m.add_adjust x ph).root = some ra ∧
        ra = r2 ∧ ra.val = r2.val ∧ ra.idx = r2.idx := by
  have hls : (MerkleTree.mk_of S ph).leaves ≠ [] := by
    simp [MerkleTree.mk_of, hS]
  rcases hb : buildLoop (MerkleTree.mk_of S ph).leaves with _ | r
  · have hs := buildLoop_isSome _ hls
    rw [hb] at hs
    simp at hs
  obtain ⟨H1, _⟩ := buildLoop_append _ r hb
  have hm : buildTree S ph
      = some { leaves := (MerkleTree.mk_of S ph).leaves, root := some r } := by
    unfold buildTree MerkleTree.build
    rw [hb]
  have happ : (MerkleTree.mk_of (S ++ [x]) ph).leaves
      = (MerkleTree.mk_of S ph).leaves ++ [mkLeaf x.1 x.2 ph] := by
    simp [MerkleTree.mk_of]
  have hb2 := H1 (mkLeaf x.1 x.2 ph)
  have hm2 : buildTree (S ++ [x]) ph
      = some { leaves := (MerkleTree.mk_of (S ++ [x]) ph).leaves,
               root := some (adjustFold
                 (subtreesAux r (looseOf (MerkleTree.mk_of S ph).leaves.length))
                 (mkLeaf x.1 x.2 ph)) } := by
    unfold buildTree MerkleTree.build
    rw [happ, hb2]
  exact ⟨_, _, hm, hm2, _, _, rfl, rfl, rfl, rfl, rfl⟩

theorem append_adjust_equivalence_witness :
    ∃ m m2,
      buildTree [(ByteStr.raw "a", 0), (ByteStr.raw "b", 1), (ByteStr.raw "c", 2)]
          false = some m ∧
      buildTree ([(ByteStr.raw "a", 0), (ByteStr.raw "b", 1), (ByteStr.raw "c", 2)]
          ++ [(ByteStr.raw "d", 3)]) false = some m2 ∧
      ∃ r2 ra, m2.root = some r2 ∧
        (m.add_adjust (ByteStr.raw "d", 3) false).root = some ra ∧
        ra = r2 ∧ ra.val = r2.val ∧ ra.idx = r2.idx :=
  append_adjust_equivalence
    [(ByteStr.raw "a", 0), (ByteStr.raw "b", 1), (ByteStr.raw "c", 2)]
    (ByteStr.raw "d", 3) false (by decide)

/-- A RingCT output record of `out_table`:
`(block_hash, tx_hash, outkey, idx)`, in idx order. -/
structure Record where
  block_hash : String
  tx_hash : String
  outkey : String
  idx : Int
deriving DecidableEq, Repr

/-- The inner while loop of the grouping code in `block_to_merkle` /
`scan_over_new_blocks` / `update_merkle`: pop records while the key matches;
returns the popped run and the remainder. -/
def takeRun (key : String) (f : Record → String) :
    List Record → List Record × List Record
  | [] => ([], [])
  | r :: rest =>
      if f r = key then
        let p := takeRun key f rest
        (r :: p.1, p.2)
      else ([], r :: rest)

/-- One grouping step: the maximal prefix run sharing the first record's key
(the do-while always pops the first record), and the rest. -/
def runSplit (f : Record → String) : List Record → List Record × List Record
  | [] => ([], [])
  | r :: rest =>
      let p := takeRun (f r) f rest
      (r :: p.1, p.2)

theorem takeRun_snd_length (key : String) (f : Record → String) :
    ∀ l : List Record, (takeRun key f l).2.length ≤ l.length
  | [] => by simp [takeRun]
  | r :: rest => by
      unfold takeRun
      by_cases h : f r = key
      · rw [if_pos h]
        have := takeRun_snd_length key f rest
        simpa using Nat.le_succ_of_le this
      · rw [if_neg h]

theorem takeRun_join (key : String) (f : Record → String) :
    ∀ l : List Record, (takeRun key f l).1 ++ (takeRun key f l).2 = l
  | [] => rfl
  | r :: rest => by
      unfold takeRun
      by_cases h : f r = key
      · rw [if_pos h]
        simpa using takeRun_join key f rest
      · rw [if_neg h]
        rfl

/-- The outer grouping loop (`while new_blocks` / `while block_outkeys`),
with fuel making it structurally recursive; each step consumes at least the
run head, so `fuel = length` suffices. -/
def groupsF (f : Record → String) : Nat → List Record → List (List Record)
  | _, [] => []
  | 0, _ :: _ => []
  | fuel + 1, r :: rest =>
      let p := runSplit f (r :: rest)
      p.1 :: groupsF f fuel p.2

def groups (f : Record → String) (l : List Record) : List (List Record) :=
  groupsF f l.length l

theorem groupsF_congr (f : Record → String) :
    ∀ (f1 f2 : Nat) (l : List Record), l.length ≤ f1 → l.length ≤ f2 →
      groupsF f f1 l = groupsF f f2 l := by
  intro f1
  induction f1 with
  | zero =>
      intro f2 l h1 _
      have h0 : l = [] := by
        cases l with
        | nil => rfl
        | cons r rest => simp at h1
      subst h0
      cases f2 <;> rfl
  | succ g ih =>
      intro f2 l h1 h2
      cases l with
      | nil => cases f2 <;> rfl
      | cons r rest =>
          cases f2 with
          | zero => simp at h2
          | succ g2 =>
              show (runSplit f (r :: rest)).1 :: groupsF f g (runSplit f (r :: rest)).2
                  = (runSplit f (r :: rest)).1 :: groupsF f g2 (runSplit f (r :: rest)).2
              have hlen : (runSplit f (r :: rest)).2.length ≤ rest.length := by
                unfold runSplit
                exact takeRun_snd_length (f r) f rest
              rw [ih g2 _ (by simp at h1; omega) (by simp at h2; omega)]

theorem groups_step (f : Record → String) (r : Record) (rest : List Record) :
    groups f (r :: rest)
      = (runSplit f (r :: rest)).1 :: groups f (runSplit f (r :: rest)).2 := by
  show (runSplit f (r :: rest)).1 :: groupsF f rest.length (runSplit f (r :: rest)).2
      = (runSplit f (r :: rest)).1 :: groupsF f (runSplit f (r :: rest)).2.length
          (runSplit f (r :: rest)).2
  have hlen : (runSplit f (r :: rest)).2.length ≤ rest.length := by
    unfold runSplit
    exact takeRun_snd_length (f r) f rest
  rw [groupsF_congr f rest.length (runSplit f (r :: rest)).2.length _ hlen (le_refl _)]

theorem groups_flatten (f : Record → String) :
    ∀ l : List Record, (groups f l).flatten = l
  | [] => rfl
  | r :: rest => by
      rw [groups_step, List.flatten_cons]
      have hlen : (runSplit f (r :: rest)).2.length ≤ rest.length := by
        unfold runSplit
        exact takeRun_snd_length (f r) f rest
      rw [groups_flatten f (runSplit f (r :: rest)).2]
      show (r :: (takeRun (f r) f rest).1) ++ (takeRun (f r) f rest).2 = r :: rest
      rw [List.cons_append, takeRun_join]
termination_by l => l.length
decreasing_by
  simp only [List.length_cons]
  have := takeRun_snd_length (f r) f rest
  simp only [runSplit]
  omega

theorem groups_ne_nil (f : Record → String) :
    ∀ (l : List Record) (g : List Record), g ∈ groups f l → g ≠ []
  | [], g, hg => by simp [groups, groupsF] at hg
  | r :: rest, g, hg => by
      rw [groups_step] at hg
      rcases List.mem_cons.mp hg with h1 | h2
      · subst h1
        show (r :: (takeRun (f r) f rest).1) ≠ []
        simp
      · exact groups_ne_nil f (runSplit f (r :: rest)).2 g h2
termination_by l => l.length
decreasing_by
  simp only [List.length_cons]
  have := takeRun_snd_length (f r) f rest
  simp only [runSplit]
  omega

/-- `merkle_forest`, an `OrderedDict` keyed by (hex) root digests. -/
abbrev Forest := List (ByteStr × MerkleTree)

/-- OrderedDict assignment `d[k] = v`: replace the value in place if the key
exists, else append at the end. -/
def finsert (f : Forest) (k : ByteStr) (v : MerkleTree) : Forest :=
  match f with
  | [] => [(k, v)]
  | (k2, v2) :: rest =>
      if k2 = k then (k, v) :: rest else (k2, v2) :: finsert rest k v

/-- Dictionary lookup `d[k]` (keys are unique in an OrderedDict, so first
match). -/
def flookup (f : Forest) (k : ByteStr) : Option MerkleTree :=
  match f with
  | [] => none
  | (k2, v2) :: rest => if k2 = k then some v2 else flookup rest k

/-- `del d[k]`: drop the entry (callers guard on membership; on a missing
key Python raises KeyError). -/
def ferase (f : Forest) (k : ByteStr) : Forest :=
  match f with
  | [] => []
  | (k2, v2) :: rest => if k2 = k then rest else (k2, v2) :: ferase rest k

/-- `MerkleTree(leaves=..)` followed by `build()`, used by the server only on
non-empty groups; on the empty list Python raises, so the unbuilt tree
stands in (unreachable). -/
def build1 (leaves : List (ByteStr × Int)) : MerkleTree :=
  match buildTree leaves false with
  | some m => m
  | none => MerkleTree.mk_of leaves false

/-- `(codecs.encode(m.root.val, hex_codec), m.root.idx)` -- hex is the
identity here.  The `None` root never occurs on the server paths. -/
def rootPair (m : MerkleTree) : ByteStr × Int :=
  match m.root with
  | some r => (r.val, r.idx)
  | none => (ByteStr.raw "", 0)

def txLeaves (g : List Record) : List (ByteStr × Int) :=
  g.map (fun rec => (ByteStr.raw rec.outkey, rec.idx))

def txTree (g : List Record) : MerkleTree := build1 (txLeaves g)

def txPair (g : List Record) : ByteStr × Int := rootPair (txTree g)

def txHash (rec : Record) : String := rec.tx_hash

def blkHash (rec : Record) : String := rec.block_hash

def blkLeaves (b : List Record) : List (ByteStr × Int) :=
  (groups txHash b).map txPair

def blkTree (b : List Record) : MerkleTree := build1 (blkLeaves b)

def blkPair (b : List Record) : ByteStr × Int := rootPair (blkTree b)

/-- `monero_server.block_to_merkle`: group one block's records into
transactions, build and insert each output-level IMT (`tx_to_merkle`), build
and insert the block-level IMT over the `(root, idx)` pairs (non-prehashed:
the upper level hashes the lower root digest again), and return the block's
`(root, idx)`. -/
def block_to_merkle (b : List Record) (f : Forest) : Forest × (ByteStr × Int) :=
  let f2 := (groups txHash b).foldl
      (fun acc g => finsert acc (txPair g).1 (txTree g)) f
  (finsert f2 (blkPair b).1 (blkTree b), blkPair b)

def topLeaves (records : List Record) : List (ByteStr × Int) :=
  (groups blkHash records).map blkPair

def topTree (records : List Record) : MerkleTree := build1 (topLeaves records)

/-- `monero_server`'s process-wide state: `utxos`, `merkle_forest`,
`top_root`, `top_merkle`. -/
structure ServerState where
  utxos : List Record
  merkle_forest : Forest
  top_root : Option (ByteStr × Int)
  top_merkle : Option MerkleTree
deriving DecidableEq, Repr

/-- `monero_server.scan_over_new_blocks`: build every block, build the top
IMT over the block `(root, idx)` pairs, insert it, and publish the top
root. -/
def scan_over_new_blocks (records : List Record) (s : ServerState) :
    ServerState :=
  let f2 := (groups blkHash records).foldl
      (fun acc b => (block_to_merkle b acc).1) s.merkle_forest
  let tm := topTree records
  { utxos := s.utxos,
    merkle_forest := finsert f2 (rootPair tm).1 tm,
    top_root := some (rootPair tm),
    top_merkle := some tm }

/-- CPython `bisect.bisect_left` (with fuel; `hi - lo` shrinks every
iteration, so `length + 1` fuel always suffices). -/
def bisect_left_fuel : Nat → List Int → Int → Nat → Nat → Nat
  | 0, _, _, lo, _ => lo
  | fuel + 1, a, x, lo, hi =>
      if lo < hi then
        let mid := (lo + hi) / 2
        if a.getD mid 0 < x then bisect_left_fuel fuel a x (mid + 1) hi
        else bisect_left_fuel fuel a x lo mid
      else lo

def bisect_left (a : List Int) (x : Int) : Nat :=
  bisect_left_fuel (a.length + 1) a x 0 a.length

/-- `monero_server.find_ge`: smallest item with key at or above the target,
leftmost among equals; ValueError (`none`) when no key reaches the target
(and the degenerate unzip of an empty array also fails). -/
def find_ge (arr : List (ByteStr × Int)) (target : Int) :
    Option ((ByteStr × Int) × Nat) :=
  match arr.get? (bisect_left (arr.map Prod.snd) target) with
  | some e => some (e, bisect_left (arr.map Prod.snd) target)
  | none => none

/-- `monero_server.check_path`, the client-side hierarchical verification:
re-hash the claimed output against `out_proof[0]`, run the single-chain
check, re-hash each level's recomputed root against the next level's first
entry, and finally compare `blk_proof[-1]` with the known top root. -/
def check_path (tr : ByteStr × Int) (found_output : ByteStr × Int)
    (pp : Chain × Chain × Chain) : Bool :=
  match pp with
  | (outproof, txproof, blkproof) =>
    match outproof.head?, txproof.head?, blkproof.head?,
        outproof.getLast?, txproof.getLast?, blkproof.getLast? with
    | some o0, some t0, some b0, some oN, some tN, some bN =>
        decide ((hash_function found_output.1, found_output.2) = o0.1) &&
        (check_proof outproof).isSome &&
        decide ((hash_function oN.1.1, oN.1.2) = t0.1) &&
        (check_proof txproof).isSome &&
        decide ((hash_function tN.1.1, tN.1.2) = b0.1) &&
        (check_proof blkproof).isSome &&
        decide (bN.1 = tr)
    | _, _, _, _, _, _ => false

/-- `monero_server.getoutput` (the `/getout` endpoint): bounds check against
the top root index, then the three-level descent -- find the block by
`find_ge` over the top leaves, take its proof, look its tree up in the
forest, and repeat for the transaction and output levels.  `none` covers the
`Failure` bounds response (and the exception paths, unreachable on built
forests). -/
def getoutput (s : ServerState) (q : Int) :
    Option ((ByteStr × Int) × (Chain × Chain × Chain)) := do
  let tr ← s.top_root
  let tm ← s.top_merkle
  if q < 0 ∨ tr.2 < q then none
  else do
    let fb ← find_ge (tm.leaves.map (fun lf => (lf.dataD, lf.idx))) q
    let blk_proof ← tm.get_proof_nat fb.2
    let bm ← flookup s.merkle_forest fb.1.1
    let ft ← find_ge (bm.leaves.map (fun lf => (lf.dataD, lf.idx))) q
    let tx_proof ← bm.get_proof_nat ft.2
    let txm ← flookup s.merkle_forest ft.1.1
    let fo ← find_ge (txm.leaves.map (fun lf => (lf.dataD, lf.idx))) q
    let out_proof ← txm.get_proof_nat fo.2
    some (fo.1, (out_proof, tx_proof, blk_proof))

/-- `monero_server.update_merkle` (the `/update` endpoint): with pending
records, delete the superseded top-root entry, consume one block's worth of
records, build and insert its tx- and block-level IMTs, `add_adjust` the
block root onto the top IMT, and install the new top root.  `none` is the
no-pending-records failure; the KeyError on a missing old key is also
`none`. -/
def update_merkle (s : ServerState) : Option ServerState := do
  let tr ← s.top_root
  let tm ← s.top_merkle
  match s.utxos with
  | [] => none
  | r0 :: rest => do
      let _ ← flookup s.merkle_forest tr.1
      let f1 := ferase s.merkle_forest tr.1
      let p := runSplit blkHash (r0 :: rest)
      let res := block_to_merkle p.1 f1
      let tm2 := tm.add_adjust res.2 false
      let tr2 := rootPair tm2
      some { utxos := p.2,
             merkle_forest := finsert res.1 tr2.1 tm2,
             top_root := some tr2,
             top_merkle := some tm2 }

theorem mkLeaf_val_false (d : ByteStr) (i : Int) :
    (mkLeaf d i false).val = hash_function d := rfl

theorem mkLeaf_idx (d : ByteStr) (i : Int) (ph : Bool) :
    (mkLeaf d i ph).idx = i := by
  unfold mkLeaf
  split <;> rfl

theorem mkLeaf_dataD (d : ByteStr) (i : Int) (ph : Bool) :
    (mkLeaf d i ph).dataD = d := by
  unfold mkLeaf
  split <;> rfl

theorem chainOf_head (r : Tree) (i : Nat) :
    (chainOf r i).head? = some (((r.leafAt i).val, (r.leafAt i).idx), Side.SELF) :=
  rfl

theorem chainOf_getLast (r : Tree) (i : Nat) :
    (chainOf r i).getLast? = some ((r.val, r.idx), Side.ROOT) := by
  unfold chainOf
  rw [show ((((r.leafAt i).val, (r.leafAt i).idx), Side.SELF) ::
      (r.proofSibs i ++ [((r.val, r.idx), Side.ROOT)]))
      = ((((r.leafAt i).val, (r.leafAt i).idx), Side.SELF) :: r.proofSibs i)
        ++ [((r.val, r.idx), Side.ROOT)] by simp]
  exact List.getLast?_concat _

/-- The single-chain check succeeds on every chain extracted from a built
(hash-consistent) tree and recomputes the root digest. -/
theorem check_proof_chainOf (r : Tree) (i : Nat) (hok : r.hashOk = true)
    (hi : i < r.leafCount) : check_proof (chainOf r i) = some r.val := by
  unfold chainOf
  rw [check_proof_cons]
  have hdl : (r.proofSibs i ++ [((r.val, r.idx), Side.ROOT)]).dropLast
      = r.proofSibs i := List.dropLast_concat
  rw [hdl, foldLink_proofSibs r i hok hi]
  have hgl : ((((r.leafAt i).val, (r.leafAt i).idx), Side.SELF) ::
        (r.proofSibs i ++ [((r.val, r.idx), Side.ROOT)])).getLast
        (List.cons_ne_nil _ _) = ((r.val, r.idx), Side.ROOT) := by
    apply getLast_eq_of_getLast?_eq
    exact chainOf_getLast r i
  rw [hgl]
  simp

theorem leavesList_get? :
    ∀ (t : Tree) (i : Nat), i < t.leafCount →
      t.leavesList.get? i = some (t.leafAt i)
  | .leaf v ix d, i, hi => by
      have h0 : i = 0 := by
        simp only [Tree.leafCount] at hi
        omega
      subst h0
      rfl
  | .node v ix l r, i, hi => by
      simp only [Tree.leavesList, Tree.leafAt]
      by_cases hc : i < l.leafCount
      · rw [if_pos hc, List.get?_append (by rw [← Tree.leafCount_eq]; exact hc)]
        exact leavesList_get? l i hc
      · have hlen : l.leavesList.length ≤ i := by
          rw [← Tree.leafCount_eq]
          omega
        rw [if_neg hc, List.get?_append_right hlen, Tree.leafCount_eq]
        refine leavesList_get? r (i - l.leavesList.length) ?_
        simp only [Tree.leafCount] at hi
        rw [← Tree.leafCount_eq]
        omega

/-- `build1` does not disturb the leaf list. -/
theorem build1_leaves (pairs : List (ByteStr × Int)) :
    (build1 pairs).leaves = pairs.map (fun p => mkLeaf p.1 p.2 false) := by
  unfold build1
  rcases hb : buildTree pairs false with _ | m
  · rfl
  · exact (buildTree_parts pairs false m hb).1

theorem build1_root (pairs : List (ByteStr × Int)) (hne : pairs ≠ []) :
    ∃ r, (build1 pairs).root = some r ∧
      buildLoop ((MerkleTree.mk_of pairs false).leaves) = some r := by
  have hls : (MerkleTree.mk_of pairs false).leaves ≠ [] := by
    simp [MerkleTree.mk_of, hne]
  rcases hb : buildLoop (MerkleTree.mk_of pairs false).leaves with _ | r
  · have hs := buildLoop_isSome _ hls
    rw [hb] at hs
    simp at hs
  refine ⟨r, ?_, rfl⟩
  unfold build1 buildTree MerkleTree.build
  rw [hb]

theorem rootPair_eq (m : MerkleTree) (r : Tree) (h : m.root = some r) :
    rootPair m = (r.val, r.idx) := by
  unfold rootPair
  rw [h]

/-- A built tree's root index is attained by one of its leaves. -/
theorem idx_attained : ∀ t : Tree, t.idxOk = true →
    ∃ lf ∈ t.leavesList, lf.idx = t.idx
  | .leaf v i d, _ => ⟨.leaf v i d, by simp [Tree.leavesList], rfl⟩
  | .node v i l r, ht => by
      have hch := idxOk_children v i l r ht
      have hi : i = max l.idx r.idx := by
        simp only [Tree.idxOk, Bool.and_eq_true, decide_eq_true_eq] at ht
        exact ht.1.1
      by_cases hc : l.idx ≤ r.idx
      · obtain ⟨lf, hm, he⟩ := idx_attained r hch.2
        exact ⟨lf, by simp [Tree.leavesList, hm], by
          show lf.idx = i
          rw [hi, max_eq_right hc, he]⟩
      · obtain ⟨lf, hm, he⟩ := idx_attained l hch.1
        exact ⟨lf, by simp [Tree.leavesList, hm], by
          show lf.idx = i
          rw [hi, max_eq_left (by omega), he]⟩

/-- A built tree's root index bounds every leaf index. -/
theorem idx_bound : ∀ t : Tree, t.idxOk = true →
    ∀ lf ∈ t.leavesList, lf.idx ≤ t.idx
  | .leaf v i d, _, lf, hm => by
      simp only [Tree.leavesList, List.mem_singleton] at hm
      subst hm
      exact le_refl _
  | .node v i l r, ht, lf, hm => by
      have hch := idxOk_children v i l r ht
      have hi : i = max l.idx r.idx := by
        simp only [Tree.idxOk, Bool.and_eq_true, decide_eq_true_eq] at ht
        exact ht.1.1
      simp only [Tree.leavesList, List.mem_append] at hm
      show lf.idx ≤ i
      rcases hm with h1 | h2
      · have := idx_bound l hch.1 lf h1
        omega
      · have := idx_bound r hch.2 lf h2
        omega

theorem bisect_left_fuel_spec :
    ∀ (fuel : Nat) (a : List Int) (x : Int) (lo hi : Nat),
      hi - lo ≤ fuel → lo ≤ hi → hi ≤ a.length →
      (∀ j k, j ≤ k → k < a.length → a.getD j 0 ≤ a.getD k 0) →
      (∀ j, j < lo → a.getD j 0 < x) →
      (∀ j, hi ≤ j → j < a.length → x ≤ a.getD j 0) →
      lo ≤ bisect_left_fuel fuel a x lo hi ∧
        bisect_left_fuel fuel a x lo hi ≤ hi ∧
        (∀ j, j < bisect_left_fuel fuel a x lo hi → a.getD j 0 < x) ∧
        (∀ j, bisect_left_fuel fuel a x lo hi ≤ j → j < a.length →
          x ≤ a.getD j 0) := by
  intro fuel
  induction fuel with
  | zero =>
      intro a x lo hi hf hlh hha hs h1 h2
      have he : lo = hi := by omega
      show lo ≤ lo ∧ lo ≤ hi ∧ _
      subst he
      exact ⟨le_refl _, le_refl _, h1, h2⟩
  | succ f ih =>
      intro a x lo hi hf hlh hha hs h1 h2
      have hstep : bisect_left_fuel (f + 1) a x lo hi
          = if lo < hi then
              if a.getD ((lo + hi) / 2) 0 < x
              then bisect_left_fuel f a x ((lo + hi) / 2 + 1) hi
              else bisect_left_fuel f a x lo ((lo + hi) / 2)
            else lo := rfl
      rw [hstep]
      by_cases hcmp : lo < hi
      · rw [if_pos hcmp]
        have hmid1 : lo ≤ (lo + hi) / 2 := by omega
        have hmid2 : (lo + hi) / 2 < hi := by omega
        by_cases hval : a.getD ((lo + hi) / 2) 0 < x
        · rw [if_pos hval]
          have hpre : ∀ j, j < (lo + hi) / 2 + 1 → a.getD j 0 < x := by
            intro j hj
            calc a.getD j 0 ≤ a.getD ((lo + hi) / 2) 0 :=
                  hs j ((lo + hi) / 2) (by omega) (by omega)
              _ < x := hval
          have h := ih a x ((lo + hi) / 2 + 1) hi (by omega) (by omega) hha hs
            hpre h2
          exact ⟨by omega, h.2.1, h.2.2.1, h.2.2.2⟩
        · rw [if_neg hval]
          have hpost : ∀ j, (lo + hi) / 2 ≤ j → j < a.length →
              x ≤ a.getD j 0 := by
            intro j hj hja
            calc x ≤ a.getD ((lo + hi) / 2) 0 := by omega
              _ ≤ a.getD j 0 := hs _ j hj hja
          have h := ih a x lo ((lo + hi) / 2) (by omega) (by omega) (by omega)
            hs h1 hpost
          exact ⟨h.1, by omega, h.2.2.1, h.2.2.2⟩
      · rw [if_neg hcmp]
        have he : lo = hi := by omega
        subst he
        exact ⟨le_refl _, le_refl _, h1, h2⟩

theorem bisect_left_spec (a : List Int) (x : Int)
    (hs : ∀ j k, j ≤ k → k < a.length → a.getD j 0 ≤ a.getD k 0) :
    bisect_left a x ≤ a.length ∧
      (∀ j, j < bisect_left a x → a.getD j 0 < x) ∧
      (∀ j, bisect_left a x ≤ j → j < a.length → x ≤ a.getD j 0) := by
  have h := bisect_left_fuel_spec (a.length + 1) a x 0 a.length (by omega)
    (by omega) (le_refl _) hs (by omega)
    (fun j hj1 hj2 => absurd (by omega : j < a.length → False) (by simp [hj2]))
  exact ⟨h.2.1, h.2.2.1, h.2.2.2⟩

theorem sorted_getD (a : List Int) (hs : a.Sorted (· ≤ ·)) :
    ∀ j k, j ≤ k → k < a.length → a.getD j 0 ≤ a.getD k 0 := by
  intro j k hjk hk
  have hj : j < a.length := by omega
  rw [List.getD_eq_get?, List.getD_eq_get?, List.get?_eq_get hj,
      List.get?_eq_get hk]
  simp only [Option.getD_some]
  rcases Nat.lt_or_ge j k with h | h
  · exact @List.Sorted.rel_get_of_lt _ _ _ hs ⟨j, hj⟩ ⟨k, hk⟩
      (Fin.mk_lt_mk.mpr h)
  · have he : j = k := by omega
    subst he
    exact le_refl _

theorem get?_lt_length {α : Type} (l : List α) (i : Nat) (e : α)
    (h : l.get? i = some e) : i < l.length := by
  by_contra hc
  rw [List.get?_eq_none.mpr (by omega)] at h
  exact absurd h (by simp)

/-- `find_ge` on a list with non-decreasing keys: the result is the leftmost
element whose key reaches the target, and it succeeds as soon as some key
does. -/
theorem find_ge_spec (arr : List (ByteStr × Int)) (target : Int)
    (hs : (arr.map Prod.snd).Sorted (· ≤ ·)) :
    (∀ e i, find_ge arr target = some (e, i) →
        arr.get? i = some e ∧ target ≤ e.2 ∧
          ∀ j e2, j < i → arr.get? j = some e2 → e2.2 < target) ∧
    ((∃ e ∈ arr, target ≤ e.2) → (find_ge arr target).isSome = true) := by
  have hb := bisect_left_spec (arr.map Prod.snd) target
    (sorted_getD _ hs)
  have hgetD : ∀ j e2, arr.get? j = some e2 →
      (arr.map Prod.snd).getD j 0 = e2.2 := by
    intro j e2 hj
    rw [List.getD_eq_get?, List.get?_map, hj]
    rfl
  constructor
  · intro e i hfind
    unfold find_ge at hfind
    rcases hget : arr.get? (bisect_left (arr.map Prod.snd) target) with _ | e2
    · rw [hget] at hfind
      simp at hfind
    · rw [hget] at hfind
      simp only [Option.some.injEq, Prod.mk.injEq] at hfind
      obtain ⟨he, hi⟩ := hfind
      rw [← hi, ← he]
      refine ⟨hget, ?_, ?_⟩
      · have hlt := get?_lt_length arr _ e2 hget
        have hx := hb.2.2 (bisect_left (arr.map Prod.snd) target) (le_refl _)
          (by rw [List.length_map]; exact hlt)
        rw [hgetD _ e2 hget] at hx
        exact hx
      · intro j e3 hj hje
        have hx := hb.2.1 j hj
        rw [hgetD _ e3 hje] at hx
        exact hx
  · intro ⟨e, hmem, hte⟩
    obtain ⟨n, hn⟩ := List.mem_iff_get.mp hmem
    rcases hget : arr.get? (bisect_left (arr.map Prod.snd) target) with _ | e2
    · exfalso
      have hres : arr.length ≤ bisect_left (arr.map Prod.snd) target := by
        by_contra hc
        rw [List.get?_eq_get (by omega)] at hget
        exact absurd hget (by simp)
      have hnd := hb.2.1 n.1 (by have h2 := n.2; omega)
      rw [hgetD n.1 e (by rw [List.get?_eq_get n.2]; exact congrArg some hn)]
        at hnd
      omega
    · show (match arr.get? (bisect_left (List.map Prod.snd arr) target) with
          | some e3 => some (e3, bisect_left (List.map Prod.snd arr) target)
          | none => none).isSome = true
      rw [hget]
      rfl

theorem records_mem_of_group (f : Record → String) (l : List Record)
    (g : List Record) (hg : g ∈ groups f l) : ∀ rec ∈ g, rec ∈ l := by
  intro rec hr
  rw [← groups_flatten f l]
  exact List.mem_flatten.mpr ⟨g, hg, hr⟩

theorem groups_nonempty (f : Record → String) (l : List Record) (h : l ≠ []) :
    groups f l ≠ [] := by
  intro he
  have hf := groups_flatten f l
  rw [he] at hf
  exact h hf.symm

/-- Sortedness of the stream distributes over the grouping: every group is
sorted, and groups are ordered pairwise. -/
theorem groups_pairwise (f : Record → String) (l : List Record)
    (hs : (l.map Record.idx).Sorted (· ≤ ·)) :
    (∀ g ∈ groups f l, (g.map Record.idx).Sorted (· ≤ ·)) ∧
      (groups f l).Pairwise
        (fun g1 g2 => ∀ x ∈ g1, ∀ y ∈ g2, Record.idx x ≤ Record.idx y) := by
  have hsf : (((groups f l).map (fun g => g.map Record.idx)).flatten).Pairwise
      (fun x1 x2 => x1 ≤ x2) := by
    rw [← List.map_flatten, groups_flatten]
    exact hs
  rw [List.pairwise_flatten] at hsf
  constructor
  · intro g hg
    exact hsf.1 _ (List.mem_map_of_mem _ hg)
  · have h2 := hsf.2
    rw [List.pairwise_map] at h2
    refine h2.imp fun {g1 g2} hcross => fun x hx y hy => ?_
    exact hcross _ (List.mem_map_of_mem _ hx) _ (List.mem_map_of_mem _ hy)

/-- All the facts about a built server-side tree needed by the query
proofs. -/
theorem build1_facts (pairs : List (ByteStr × Int)) (hne : pairs ≠ []) :
    ∃ r, (build1 pairs).root = some r ∧ r.idxOk = true ∧ r.hashOk = true ∧
      r.leavesList = pairs.map (fun p => mkLeaf p.1 p.2 false) ∧
      r.leafCount = pairs.length ∧
      (∃ p ∈ pairs, p.2 = r.idx) ∧ (∀ p ∈ pairs, p.2 ≤ r.idx) := by
  obtain ⟨r, hroot, hbl⟩ := build1_root pairs hne
  have hleaf : ∀ t ∈ (MerkleTree.mk_of pairs false).leaves, t.isLeafT = true :=
    mk_of_leaves pairs false
  have hlv : r.leavesList = pairs.map (fun p => mkLeaf p.1 p.2 false) := by
    rw [buildLoop_leavesList _ r hbl, layerLeaves_of_leaves _ hleaf]
    rfl
  have hidx : r.idxOk = true := by
    refine buildLoop_idxOk _ ?_ r hbl
    intro t ht
    simp only [MerkleTree.mk_of, List.mem_map] at ht
    obtain ⟨p, _, hp⟩ := ht
    exact hp ▸ mkLeaf_idxOk p.1 p.2 false
  have hhash : r.hashOk = true := by
    refine buildLoop_hashOk _ ?_ r hbl
    intro t ht
    simp only [MerkleTree.mk_of, List.mem_map] at ht
    obtain ⟨p, _, hp⟩ := ht
    exact hp ▸ mkLeaf_hashOk p.1 p.2 false
  have hcount : r.leafCount = pairs.length := buildLoop_leafCount pairs false r hbl
  refine ⟨r, hroot, hidx, hhash, hlv, hcount, ?_, ?_⟩
  · obtain ⟨lf, hm, he⟩ := idx_attained r hidx
    rw [hlv] at hm
    simp only [List.mem_map] at hm
    obtain ⟨p, hp, hpe⟩ := hm
    refine ⟨p, hp, ?_⟩
    rw [← he, ← hpe, mkLeaf_idx]
  · intro p hp
    have hm : mkLeaf p.1 p.2 false ∈ r.leavesList := by
      rw [hlv]
      exact List.mem_map_of_mem _ hp
    have hb := idx_bound r hidx _ hm
    rw [mkLeaf_idx] at hb
    exact hb

/-- The `(data, idx)` view of a built tree's leaf list is exactly its input
pair list. -/
theorem build1_leafmap (pairs : List (ByteStr × Int)) :
    (build1 pairs).leaves.map (fun lf => (lf.dataD, lf.idx)) = pairs := by
  rw [build1_leaves, List.map_map]
  have hfun : ((fun lf => (Tree.dataD lf, Tree.idx lf)) ∘
      fun p => mkLeaf p.1 p.2 false) = fun p : ByteStr × Int => (p.1, p.2) := by
    funext p
    simp [Function.comp, mkLeaf_dataD, mkLeaf_idx]
  rw [hfun]
  simp

theorem txLeaves_ne_nil (g : List Record) (h : g ≠ []) : txLeaves g ≠ [] := by
  simp [txLeaves, h]

theorem blkLeaves_ne_nil (b : List Record) (h : b ≠ []) : blkLeaves b ≠ [] := by
  unfold blkLeaves
  simp only [ne_eq, List.map_eq_nil_iff]
  exact groups_nonempty txHash b h

theorem topLeaves_ne_nil (records : List Record) (h : records ≠ []) :
    topLeaves records ≠ [] := by
  unfold topLeaves
  simp only [ne_eq, List.map_eq_nil_iff]
  exact groups_nonempty blkHash records h

theorem txLeaves_snd (g : List Record) :
    (txLeaves g).map Prod.snd = g.map Record.idx := by
  simp [txLeaves]

/-- The transaction root pair: its index is attained in, and bounds, the
group's record indices. -/
theorem txPair_facts (g : List Record) (hne : g ≠ []) :
    (∃ rec ∈ g, rec.idx = (txPair g).2) ∧ (∀ rec ∈ g, rec.idx ≤ (txPair g).2) := by
  obtain ⟨r, hroot, _, _, _, _, hatt, hbnd⟩ :=
    build1_facts (txLeaves g) (txLeaves_ne_nil g hne)
  have hpair : (txPair g).2 = r.idx := by
    unfold txPair txTree
    rw [rootPair_eq _ r hroot]
  constructor
  · obtain ⟨p, hp, hpe⟩ := hatt
    simp only [txLeaves, List.mem_map] at hp
    obtain ⟨rec, hr, hre⟩ := hp
    exact ⟨rec, hr, by rw [hpair, ← hpe, ← hre]⟩
  · intro rec hr
    rw [hpair]
    exact hbnd (ByteStr.raw rec.outkey, rec.idx)
      (by simp only [txLeaves, List.mem_map]; exact ⟨rec, hr, rfl⟩)

theorem blkPair_facts (b : List Record) (hne : b ≠ []) :
    (∃ rec ∈ b, rec.idx = (blkPair b).2) ∧ (∀ rec ∈ b, rec.idx ≤ (blkPair b).2) := by
  obtain ⟨r, hroot, _, _, _, _, hatt, hbnd⟩ :=
    build1_facts (blkLeaves b) (blkLeaves_ne_nil b hne)
  have hpair : (blkPair b).2 = r.idx := by
    unfold blkPair blkTree
    rw [rootPair_eq _ r hroot]
  constructor
  · obtain ⟨p, hp, hpe⟩ := hatt
    simp only [blkLeaves, List.mem_map] at hp
    obtain ⟨g, hg, hge⟩ := hp
    have hgne : g ≠ [] := groups_ne_nil txHash b g hg
    obtain ⟨⟨rec, hr, hre⟩, _⟩ := txPair_facts g hgne
    refine ⟨rec, records_mem_of_group txHash b g hg rec hr, ?_⟩
    rw [hpair, ← hpe, ← hge, ← hre]
  · intro rec hr
    rw [hpair]
    have hmem : rec ∈ (groups txHash b).flatten := by
      rw [groups_flatten]
      exact hr
    obtain ⟨g, hg, hrg⟩ := List.mem_flatten.mp hmem
    have hgne : g ≠ [] := groups_ne_nil txHash b g hg
    calc rec.idx ≤ (txPair g).2 := (txPair_facts g hgne).2 rec hrg
      _ ≤ r.idx := hbnd (txPair g)
          (by simp only [blkLeaves, List.mem_map]; exact ⟨g, hg, rfl⟩)

theorem topPair_facts (records : List Record) (hne : records ≠ []) :
    (∃ rec ∈ records, rec.idx = (rootPair (topTree records)).2) ∧
      (∀ rec ∈ records, rec.idx ≤ (rootPair (topTree records)).2) := by
  obtain ⟨r, hroot, _, _, _, _, hatt, hbnd⟩ :=
    build1_facts (topLeaves records) (topLeaves_ne_nil records hne)
  have hpair : (rootPair (topTree records)).2 = r.idx := by
    unfold topTree
    rw [rootPair_eq _ r hroot]
  constructor
  · obtain ⟨p, hp, hpe⟩ := hatt
    simp only [topLeaves, List.mem_map] at hp
    obtain ⟨b, hb, hbe⟩ := hp
    have hbne : b ≠ [] := groups_ne_nil blkHash records b hb
    obtain ⟨⟨rec, hr, hre⟩, _⟩ := blkPair_facts b hbne
    refine ⟨rec, records_mem_of_group blkHash records b hb rec hr, ?_⟩
    rw [hpair, ← hpe, ← hbe, ← hre]
  · intro rec hr
    rw [hpair]
    have hmem : rec ∈ (groups blkHash records).flatten := by
      rw [groups_flatten]
      exact hr
    obtain ⟨b, hb, hrb⟩ := List.mem_flatten.mp hmem
    have hbne : b ≠ [] := groups_ne_nil blkHash records b hb
    calc rec.idx ≤ (blkPair b).2 := (blkPair_facts b hbne).2 rec hrb
      _ ≤ r.idx := hbnd (blkPair b)
          (by simp only [topLeaves, List.mem_map]; exact ⟨b, hb, rfl⟩)

theorem blkLeaves_snd_sorted (b : List Record)
    (hs : (b.map Record.idx).Sorted (· ≤ ·)) :
    ((blkLeaves b).map Prod.snd).Sorted (· ≤ ·) := by
  have hmm : (blkLeaves b).map Prod.snd
      = (groups txHash b).map (fun g => (txPair g).2) := by
    simp [blkLeaves]
  rw [hmm]
  have hp := (groups_pairwise txHash b hs).2
  rw [List.Sorted, List.pairwise_map]
  refine hp.imp_of_mem ?_
  intro g1 g2 h1m h2m hcross
  have h1ne : g1 ≠ [] := groups_ne_nil txHash b g1 h1m
  have h2ne : g2 ≠ [] := groups_ne_nil txHash b g2 h2m
  obtain ⟨⟨r1, hr1, he1⟩, _⟩ := txPair_facts g1 h1ne
  obtain ⟨⟨r2, hr2, he2⟩, _⟩ := txPair_facts g2 h2ne
  rw [← he1, ← he2]
  exact hcross r1 hr1 r2 hr2

theorem topLeaves_snd_sorted (records : List Record)
    (hs : (records.map Record.idx).Sorted (· ≤ ·)) :
    ((topLeaves records).map Prod.snd).Sorted (· ≤ ·) := by
  have hmm : (topLeaves records).map Prod.snd
      = (groups blkHash records).map (fun b => (blkPair b).2) := by
    simp [topLeaves]
  rw [hmm]
  have hp := (groups_pairwise blkHash records hs).2
  rw [List.Sorted, List.pairwise_map]
  refine hp.imp_of_mem ?_
  intro b1 b2 h1m h2m hcross
  have h1ne : b1 ≠ [] := groups_ne_nil blkHash records b1 h1m
  have h2ne : b2 ≠ [] := groups_ne_nil blkHash records b2 h2m
  obtain ⟨⟨r1, hr1, he1⟩, _⟩ := blkPair_facts b1 h1ne
  obtain ⟨⟨r2, hr2, he2⟩, _⟩ := blkPair_facts b2 h2ne
  rw [← he1, ← he2]
  exact hcross r1 hr1 r2 hr2

theorem finsert_mem : ∀ (f : Forest) (k : ByteStr) (v : MerkleTree),
    ∀ e ∈ finsert f k v, e ∈ f ∨ e = (k, v)
  | [], k, v, e, he => by
      simp only [finsert, List.mem_singleton] at he
      exact Or.inr he
  | (k2, v2) :: rest, k, v, e, he => by
      unfold finsert at he
      by_cases h : k2 = k
      · rw [if_pos h] at he
        rcases List.mem_cons.mp he with h1 | h2
        · exact Or.inr h1
        · exact Or.inl (List.mem_cons_of_mem _ h2)
      · rw [if_neg h] at he
        rcases List.mem_cons.mp he with h1 | h2
        · exact Or.inl (h1 ▸ List.mem_cons_self _ _)
        · rcases finsert_mem rest k v e h2 with h3 | h4
          · exact Or.inl (List.mem_cons_of_mem _ h3)
          · exact Or.inr h4

theorem flookup_mem : ∀ (f : Forest) (k : ByteStr) (m : MerkleTree),
    flookup f k = some m → (k, m) ∈ f
  | [], k, m, h => by simp [flookup] at h
  | (k2, v2) :: rest, k, m, h => by
      unfold flookup at h
      by_cases hk : k2 = k
      · rw [if_pos hk] at h
        simp only [Option.some.injEq] at h
        subst h
        subst hk
        exact List.mem_cons_self _ _
      · rw [if_neg hk] at h
        exact List.mem_cons_of_mem _ (flookup_mem rest k m h)

theorem tx_fold_mem (gs : List (List Record)) :
    ∀ (f : Forest),
      ∀ e ∈ gs.foldl (fun acc g => finsert acc (txPair g).1 (txTree g)) f,
        e ∈ f ∨ ∃ g ∈ gs, e = ((txPair g).1, txTree g) := by
  induction gs with
  | nil => intro f e he; exact Or.inl he
  | cons g rest ih =>
      intro f e he
      rw [List.foldl_cons] at he
      rcases ih (finsert f (txPair g).1 (txTree g)) e he with h1 | h2
      · rcases finsert_mem f (txPair g).1 (txTree g) e h1 with h3 | h4
        · exact Or.inl h3
        · exact Or.inr ⟨g, by simp, h4⟩
      · obtain ⟨g2, hg2, he2⟩ := h2
        exact Or.inr ⟨g2, by simp [hg2], he2⟩

theorem block_to_merkle_mem (b : List Record) (f : Forest) :
    ∀ e ∈ (block_to_merkle b f).1,
      e ∈ f ∨ (∃ g ∈ groups txHash b, e = ((txPair g).1, txTree g)) ∨
        e = ((blkPair b).1, blkTree b) := by
  intro e he
  unfold block_to_merkle at he
  rcases finsert_mem _ (blkPair b).1 (blkTree b) e he with h1 | h2
  · rcases tx_fold_mem (groups txHash b) f e h1 with h3 | h4
    · exact Or.inl h3
    · exact Or.inr (Or.inl h4)
  · exact Or.inr (Or.inr h2)

theorem scan_fold_mem (bs : List (List Record)) :
    ∀ (f : Forest),
      ∀ e ∈ bs.foldl (fun acc b => (block_to_merkle b acc).1) f,
        e ∈ f ∨ ∃ b ∈ bs,
          (∃ g ∈ groups txHash b, e = ((txPair g).1, txTree g)) ∨
            e = ((blkPair b).1, blkTree b) := by
  induction bs with
  | nil => intro f e he; exact Or.inl he
  | cons b rest ih =>
      intro f e he
      rw [List.foldl_cons] at he
      rcases ih (block_to_merkle b f).1 e he with h1 | h2
      · rcases block_to_merkle_mem b f e h1 with h3 | h4
        · exact Or.inl h3
        · exact Or.inr ⟨b, by simp, h4⟩
      · obtain ⟨b2, hb2, he2⟩ := h2
        exact Or.inr ⟨b2, by simp [hb2], he2⟩

/-- Every entry of the forest of a freshly scanned state is one of the built
trees. -/
theorem scan_forest_mem (records : List Record) (s : ServerState)
    (e : ByteStr × MerkleTree)
    (he : e ∈ (scan_over_new_blocks records s).merkle_forest) :
    e ∈ s.merkle_forest ∨
      (∃ b ∈ groups blkHash records,
        (∃ g ∈ groups txHash b, e = ((txPair g).1, txTree g)) ∨
          e = ((blkPair b).1, blkTree b)) ∨
      e = ((rootPair (topTree records)).1, topTree records) := by
  unfold scan_over_new_blocks at he
  rcases finsert_mem _ _ _ e he with h1 | h2
  · rcases scan_fold_mem (groups blkHash records) s.merkle_forest e h1 with h3 | h4
    · exact Or.inl h3
    · exact Or.inr (Or.inl h4)
  · exact Or.inr (Or.inr h2)

/-- Every tree stored in a freshly scanned forest is a server-built tree over
a pair list with non-decreasing indices. -/
theorem scan_tree_sorted (records : List Record)
    (hs : (records.map Record.idx).Sorted (· ≤ ·)) (k : ByteStr)
    (m : MerkleTree)
    (hlk : flookup (scan_over_new_blocks records
        ⟨[], [], none, none⟩).merkle_forest k = some m) :
    ∃ pairs, m = build1 pairs ∧ (pairs.map Prod.snd).Sorted (· ≤ ·) := by
  have hmem := flookup_mem _ _ _ hlk
  rcases scan_forest_mem records ⟨[], [], none, none⟩ (k, m) hmem with h1 | h2 | h3
  · simp at h1
  · obtain ⟨b, hb, hcase⟩ := h2
    have hbs : (b.map Record.idx).Sorted (· ≤ ·) :=
      (groups_pairwise blkHash records hs).1 b hb
    rcases hcase with ⟨g, hg, he⟩ | he
    · refine ⟨txLeaves g, ?_, ?_⟩
      · have : m = txTree g := congrArg Prod.snd he
        exact this
      · rw [txLeaves_snd]
        exact (groups_pairwise txHash b hbs).1 g hg
    · refine ⟨blkLeaves b, ?_, blkLeaves_snd_sorted b hbs⟩
      have : m = blkTree b := congrArg Prod.snd he
      exact this
  · refine ⟨topLeaves records, ?_, topLeaves_snd_sorted records hs⟩
    have : m = topTree records := congrArg Prod.snd h3
    exact this

/-- The transaction-level tree that `getoutput` descends into: the same code
path as `getoutput`, projected onto the final forest lookup. -/
def query_txtree (s : ServerState) (q : Int) : Option MerkleTree :=
  s.top_root.bind fun tr =>
  s.top_merkle.bind fun tm =>
  if q < 0 ∨ tr.2 < q then none
  else
    (find_ge (tm.leaves.map (fun lf => (lf.dataD, lf.idx))) q).bind fun fb =>
    (tm.get_proof_nat fb.2).bind fun _ =>
    (flookup s.merkle_forest fb.1.1).bind fun bm =>
    (find_ge (bm.leaves.map (fun lf => (lf.dataD, lf.idx))) q).bind fun ft =>
    (bm.get_proof_nat ft.2).bind fun _ =>
    flookup s.merkle_forest ft.1.1

/-- Inversion of a successful `getoutput`. -/
theorem getoutput_inv (s : ServerState) (q : Int)
    (res : (ByteStr × Int) × (Chain × Chain × Chain))
    (h : getoutput s q = some res) :
    ∃ tr tm fb bm ft txm fo blkp txp outp,
      s.top_root = some tr ∧ s.top_merkle = some tm ∧
      ¬(q < 0 ∨ tr.2 < q) ∧
      find_ge (tm.leaves.map (fun lf => (lf.dataD, lf.idx))) q = some fb ∧
      tm.get_proof_nat fb.2 = some blkp ∧
      flookup s.merkle_forest fb.1.1 = some bm ∧
      find_ge (bm.leaves.map (fun lf => (lf.dataD, lf.idx))) q = some ft ∧
      bm.get_proof_nat ft.2 = some txp ∧
      flookup s.merkle_forest ft.1.1 = some txm ∧
      find_ge (txm.leaves.map (fun lf => (lf.dataD, lf.idx))) q = some fo ∧
      txm.get_proof_nat fo.2 = some outp ∧
      res = (fo.1, (outp, txp, blkp)) := by
  unfold getoutput at h
  simp only [Option.bind_eq_bind, Option.bind_eq_some] at h
  obtain ⟨tr, htr, h⟩ := h
  obtain ⟨tm, htm, h⟩ := h
  split at h
  case isTrue => simp at h
  case isFalse hcond =>
  simp only [Option.bind_eq_bind, Option.bind_eq_some] at h
  obtain ⟨fb, hfb, h⟩ := h
  obtain ⟨blkp, hblkp, h⟩ := h
  obtain ⟨bm, hbm, h⟩ := h
  obtain ⟨ft, hft, h⟩ := h
  obtain ⟨txp, htxp, h⟩ := h
  obtain ⟨txm, htxm, h⟩ := h
  obtain ⟨fo, hfo, h⟩ := h
  obtain ⟨outp, houtp, h⟩ := h
  simp only [Option.some.injEq] at h
  exact ⟨tr, tm, fb, bm, ft, txm, fo, blkp, txp, outp, htr, htm, hcond,
    hfb, hblkp, hbm, hft, htxp, htxm, hfo, houtp, h.symm⟩

theorem query_txtree_eq (s : ServerState) (q : Int)
    (tr : ByteStr × Int) (tm : MerkleTree)
    (fb : (ByteStr × Int) × Nat) (bm : MerkleTree)
    (ft : (ByteStr × Int) × Nat) (txm : MerkleTree)
    (blkp txp : Chain)
    (htr : s.top_root = some tr) (htm : s.top_merkle = some tm)
    (hcond : ¬(q < 0 ∨ tr.2 < q))
    (hfb : find_ge (tm.leaves.map (fun lf => (lf.dataD, lf.idx))) q = some fb)
    (hblkp : tm.get_proof_nat fb.2 = some blkp)
    (hbm : flookup s.merkle_forest fb.1.1 = some bm)
    (hft : find_ge (bm.leaves.map (fun lf => (lf.dataD, lf.idx))) q = some ft)
    (htxp : bm.get_proof_nat ft.2 = some txp)
    (htxm : flookup s.merkle_forest ft.1.1 = some txm) :
    query_txtree s q = some txm := by
  unfold query_txtree
  rw [htr]
  simp only [Option.some_bind]
  rw [htm]
  simp only [Option.some_bind]
  rw [if_neg hcond, hfb]
  simp only [Option.some_bind]
  rw [hblkp]
  simp only [Option.some_bind]
  rw [hbm]
  simp only [Option.some_bind]
  rw [hft]
  simp only [Option.some_bind]
  rw [htxp]
  simp only [Option.some_bind]
  exact htxm

/-- C4: whenever a query for index `q` on a forest freshly built from an
idx-sorted stream returns an output, the returned leaf has `idx ≥ q` and is
the leftmost such leaf of the transaction-level tree in which it was found:
every other leaf of that tree has `idx < q` or `idx ≥ returned.idx`. -/
theorem query_successor_semantics (records : List Record)
    (hs : (records.map Record.idx).Sorted (· ≤ ·)) (q : Int)
    (res : (ByteStr × Int) × (Chain × Chain × Chain))
    (hres : getoutput (scan_over_new_blocks records ⟨[], [], none, none⟩) q
        = some res) :
    q ≤ res.1.2 ∧
      ∃ txm, query_txtree (scan_over_new_blocks records ⟨[], [], none, none⟩) q
          = some txm ∧
        res.1 ∈ txm.leaves.map (fun lf => (lf.dataD, lf.idx)) ∧
        ∀ lf ∈ txm.leaves, lf.idx < q ∨ res.1.2 ≤ lf.idx := by
  obtain ⟨tr, tm, fb, bm, ft, txm, fo, blkp, txp, outp, htr, htm, hcond, hfb,
    hblkp, hbm, hft, htxp, htxm, hfo, houtp, hresq⟩ := getoutput_inv _ q res hres
  obtain ⟨pairs, hpe, hps⟩ := scan_tree_sorted records hs ft.1.1 txm htxm
  have hlist : txm.leaves.map (fun lf => (lf.dataD, lf.idx)) = pairs := by
    rw [hpe]
    exact build1_leafmap pairs
  have hsnd : ((txm.leaves.map (fun lf => (lf.dataD, lf.idx))).map
      Prod.snd).Sorted (· ≤ ·) := by
    rw [hlist]
    exact hps
  have hspec := find_ge_spec (txm.leaves.map (fun lf => (lf.dataD, lf.idx))) q hsnd
  have hfo2 : find_ge (txm.leaves.map (fun lf => (lf.dataD, lf.idx))) q
      = some (fo.1, fo.2) := by
    rw [hfo]
  obtain ⟨hget, hge, hleft⟩ := hspec.1 fo.1 fo.2 hfo2
  have hres1 : res.1 = fo.1 := by rw [hresq]
  constructor
  · rw [hres1]
    exact hge
  · refine ⟨txm, query_txtree_eq _ q tr tm fb bm ft txm blkp txp htr htm hcond
      hfb hblkp hbm hft htxp htxm, ?_, ?_⟩
    · rw [hres1]
      exact List.get?_mem hget
    · intro lf hlf
      obtain ⟨n, hn⟩ := List.mem_iff_get.mp hlf
      have hmap : (txm.leaves.map (fun lf => (lf.dataD, lf.idx))).get? n.1
          = some (lf.dataD, lf.idx) := by
        rw [List.get?_map, List.get?_eq_get n.2, hn]
        rfl
      rcases Nat.lt_or_ge n.1 fo.2 with hlt | hge2
      · have := hleft n.1 (lf.dataD, lf.idx) hlt hmap
        exact Or.inl this
      · right
        rw [hres1]
        have hlen : n.1 < (txm.leaves.map (fun lf => (lf.dataD, lf.idx))).length := by
          rw [List.length_map]
          exact n.2
        have hmono := sorted_getD _ hsnd fo.2 n.1 hge2
          (by rw [List.length_map]; exact hlen)
        have hd1 : ((txm.leaves.map (fun lf => (lf.dataD, lf.idx))).map
            Prod.snd).getD fo.2 0 = fo.1.2 := by
          rw [List.getD_eq_get?, List.get?_map, hget]
          rfl
        have hd2 : ((txm.leaves.map (fun lf => (lf.dataD, lf.idx))).map
            Prod.snd).getD n.1 0 = lf.idx := by
          rw [List.getD_eq_get?, List.get?_map, hmap]
          rfl
        rw [hd1, hd2] at hmono
        exact hmono

theorem query_successor_semantics_witness :
    ∃ res,
      getoutput (scan_over_new_blocks [⟨"B", "T", "k", 0⟩]
          ⟨[], [], none, none⟩) 0 = some res ∧
      (0 : Int) ≤ res.1.2 ∧
      ∃ txm, query_txtree (scan_over_new_blocks [⟨"B", "T", "k", 0⟩]
          ⟨[], [], none, none⟩) 0 = some txm ∧
        res.1 ∈ txm.leaves.map (fun lf => (lf.dataD, lf.idx)) ∧
        ∀ lf ∈ txm.leaves, lf.idx < 0 ∨ res.1.2 ≤ lf.idx :=
  ⟨_, rfl, query_successor_semantics [⟨"B", "T", "k", 0⟩] (by decide) 0 _ rfl⟩

/-- The ordered list of (key, tree) insertions `tx_to_merkle` performs for
one block's transaction groups. -/
def txInsertions (b : List Record) : Forest :=
  (groups txHash b).map (fun g => ((txPair g).1, txTree g))

/-- The ordered list of (key, tree) insertions `block_to_merkle` performs. -/
def blockInsertions (b : List Record) : Forest :=
  txInsertions b ++ [((blkPair b).1, blkTree b)]

/-- The ordered list of (key, tree) insertions a full scan performs. -/
def scanInsertions (records : List Record) : Forest :=
  ((groups blkHash records).map blockInsertions).flatten ++
    [((rootPair (topTree records)).1, topTree records)]

theorem finsert_fresh : ∀ (f : Forest) (k : ByteStr) (v : MerkleTree),
    k ∉ f.map Prod.fst → finsert f k v = f ++ [(k, v)]
  | [], _, _, _ => rfl
  | (k2, v2) :: rest, k, v, h => by
      have hk : ¬ k2 = k := by
        intro he
        exact h (by simp [he])
      unfold finsert
      rw [if_neg hk, List.cons_append, finsert_fresh rest k v
        (fun hm => h (by simp [hm]))]

theorem foldl_finsert_append : ∀ (ps : Forest) (f : Forest),
    ((f ++ ps).map Prod.fst).Nodup →
    ps.foldl (fun acc p => finsert acc p.1 p.2) f = f ++ ps
  | [], f, _ => by simp
  | p :: rest, f, hnd => by
      have hfresh : p.1 ∉ f.map Prod.fst := by
        intro hm
        rw [List.map_append, List.nodup_append] at hnd
        exact hnd.2.2 hm (by simp)
      rw [List.foldl_cons, finsert_fresh f p.1 p.2 hfresh]
      have hnd2 : (((f ++ [p]) ++ rest).map Prod.fst).Nodup := by
        rw [List.append_assoc]
        exact hnd
      have hres := foldl_finsert_append rest (f ++ [p]) hnd2
      calc rest.foldl (fun acc p2 => finsert acc p2.1 p2.2) (f ++ [(p.1, p.2)])
          = (f ++ [p]) ++ rest := hres
        _ = f ++ (p :: rest) := by rw [List.append_assoc]; rfl

theorem tx_fold_eq (b : List Record) (f : Forest)
    (hnd : ((f ++ txInsertions b).map Prod.fst).Nodup) :
    (groups txHash b).foldl
        (fun acc g => finsert acc (txPair g).1 (txTree g)) f
      = f ++ txInsertions b := by
  have hmap := List.foldl_map (fun g => ((txPair g).1, txTree g))
    (fun acc p => finsert acc p.1 p.2) (groups txHash b) f
  unfold txInsertions
  rw [show (groups txHash b).foldl
      (fun acc g => finsert acc (txPair g).1 (txTree g)) f
      = ((groups txHash b).map (fun g => ((txPair g).1, txTree g))).foldl
        (fun acc p => finsert acc p.1 p.2) f from hmap.symm]
  exact foldl_finsert_append _ f hnd

theorem block_to_merkle_fst_eq (b : List Record) (f : Forest)
    (hnd : ((f ++ blockInsertions b).map Prod.fst).Nodup) :
    (block_to_merkle b f).1 = f ++ blockInsertions b := by
  show finsert ((groups txHash b).foldl
      (fun acc g => finsert acc (txPair g).1 (txTree g)) f)
    (blkPair b).1 (blkTree b) = f ++ blockInsertions b
  have hnd1 : ((f ++ txInsertions b).map Prod.fst).Nodup := by
    refine List.Nodup.sublist (List.Sublist.map Prod.fst ?_) hnd
    refine (List.append_sublist_append_left f).mpr ?_
    exact List.sublist_append_left _ _
  rw [tx_fold_eq b f hnd1]
  have hfresh : (blkPair b).1 ∉ (f ++ txInsertions b).map Prod.fst := by
    intro hm
    unfold blockInsertions at hnd
    rw [← List.append_assoc, List.map_append, List.nodup_append] at hnd
    exact hnd.2.2 hm (by simp)
  rw [finsert_fresh _ _ _ hfresh, blockInsertions, List.append_assoc]

theorem scan_fold_eq : ∀ (bs : List (List Record)) (f : Forest),
    ((f ++ (bs.map blockInsertions).flatten).map Prod.fst).Nodup →
    bs.foldl (fun acc b => (block_to_merkle b acc).1) f
      = f ++ (bs.map blockInsertions).flatten
  | [], f, _ => by simp
  | b :: rest, f, hnd => by
      have hflat : ((b :: rest).map blockInsertions).flatten
          = blockInsertions b ++ (rest.map blockInsertions).flatten := by
        simp
      rw [hflat] at hnd
      have hnd1 : ((f ++ blockInsertions b).map Prod.fst).Nodup := by
        refine List.Nodup.sublist (List.Sublist.map Prod.fst ?_) hnd
        refine (List.append_sublist_append_left f).mpr ?_
        exact List.sublist_append_left _ _
      rw [List.foldl_cons, block_to_merkle_fst_eq b f hnd1]
      have hnd2 : (((f ++ blockInsertions b) ++
          (rest.map blockInsertions).flatten).map Prod.fst).Nodup := by
        rw [List.append_assoc]
        exact hnd
      rw [scan_fold_eq rest (f ++ blockInsertions b) hnd2, hflat,
        List.append_assoc]

/-- With globally fresh root keys, the scanned forest is exactly the ordered
insertion list. -/
theorem scan_forest_eq (records : List Record)
    (hnd : ((scanInsertions records).map Prod.fst).Nodup) :
    (scan_over_new_blocks records ⟨[], [], none, none⟩).merkle_forest
      = scanInsertions records := by
  show finsert ((groups blkHash records).foldl
      (fun acc b => (block_to_merkle b acc).1) [])
    (rootPair (topTree records)).1 (topTree records) = scanInsertions records
  unfold scanInsertions at hnd
  have hnd1 : ((([] : Forest) ++
      ((groups blkHash records).map blockInsertions).flatten).map
        Prod.fst).Nodup := by
    rw [List.nil_append]
    exact List.Nodup.sublist (List.Sublist.map Prod.fst
      (List.sublist_append_left _ _)) hnd
  have hfold := scan_fold_eq (groups blkHash records) [] hnd1
  rw [List.nil_append] at hfold
  rw [hfold]
  have hfresh : (rootPair (topTree records)).1 ∉
      (((groups blkHash records).map blockInsertions).flatten).map
        Prod.fst := by
    intro hm
    rw [List.map_append, List.nodup_append] at hnd
    exact hnd.2.2 hm (by simp)
  rw [finsert_fresh _ _ _ hfresh]
  rfl

theorem flookup_of_mem_nodup : ∀ (f : Forest),
    (f.map Prod.fst).Nodup → ∀ (k : ByteStr) (m : MerkleTree),
      (k, m) ∈ f → flookup f k = some m
  | [], _, k, m, hm => by simp at hm
  | (k2, v2) :: rest, hnd, k, m, hm => by
      rcases List.mem_cons.mp hm with h1 | h2
      · unfold flookup
        rw [if_pos (congrArg Prod.fst h1.symm)]
        exact congrArg (fun p => some p.2) h1.symm
      · unfold flookup
        by_cases hk : k2 = k
        · exfalso
          rw [List.map_cons, List.nodup_cons] at hnd
          exact hnd.1 (hk ▸ (List.mem_map_of_mem Prod.fst h2 : k ∈ _))
        · rw [if_neg hk]
          exact flookup_of_mem_nodup rest
            (by rw [List.map_cons, List.nodup_cons] at hnd; exact hnd.2) k m h2

theorem blk_mem_scanInsertions (records : List Record) (b : List Record)
    (hb : b ∈ groups blkHash records) :
    ((blkPair b).1, blkTree b) ∈ scanInsertions records := by
  unfold scanInsertions
  refine List.mem_append_left _ (List.mem_flatten.mpr
    ⟨blockInsertions b, List.mem_map_of_mem _ hb, ?_⟩)
  unfold blockInsertions
  exact List.mem_append_right _ (by simp)

theorem tx_mem_scanInsertions (records : List Record) (b g : List Record)
    (hb : b ∈ groups blkHash records) (hg : g ∈ groups txHash b) :
    ((txPair g).1, txTree g) ∈ scanInsertions records := by
  unfold scanInsertions
  refine List.mem_append_left _ (List.mem_flatten.mpr
    ⟨blockInsertions b, List.mem_map_of_mem _ hb, ?_⟩)
  unfold blockInsertions
  refine List.mem_append_left _ ?_
  unfold txInsertions
  exact List.mem_map_of_mem _ hg

/-- `get_proof` on a built tree at an in-range non-negative index returns the
structural chain. -/
theorem build1_get_proof (pairs : List (ByteStr × Int)) (i : Nat)
    (hi : i < pairs.length) (r : Tree)
    (hroot : (build1 pairs).root = some r) :
    (build1 pairs).get_proof_nat i = some (chainOf r i) := by
  unfold MerkleTree.get_proof_nat MerkleTree.get_proof
  have hlen : (build1 pairs).leaves.length = pairs.length := by
    rw [build1_leaves, List.length_map]
  have hget : pyGet (build1 pairs).leaves (i : Int)
      = (build1 pairs).leaves.get? i := by
    unfold pyGet
    rw [if_pos (Int.ofNat_nonneg i), Int.toNat_ofNat]
  rw [hget, List.get?_eq_get (by rw [hlen]; exact hi)]
  simp only [Option.map_some']
  rw [hroot]
  have hpos : pyPos (build1 pairs).leaves.length (i : Int) = i := by
    unfold pyPos
    rw [if_pos (Int.ofNat_nonneg i), Int.toNat_ofNat]
  rw [hpos]

/-- One level of the server's query: on a built tree over sorted pairs with
some index reaching the target, `find_ge` finds the leftmost adequate pair
and `get_proof` yields a verifying chain whose head re-hashes that pair and
whose last entry is the root pair. -/
theorem build1_query (pairs : List (ByteStr × Int)) (hne : pairs ≠ [])
    (q : Int) (hs : (pairs.map Prod.snd).Sorted (· ≤ ·))
    (hex : ∃ p ∈ pairs, q ≤ p.2) :
    ∃ e i r,
      find_ge ((build1 pairs).leaves.map (fun lf => (lf.dataD, lf.idx))) q
        = some (e, i) ∧
      e ∈ pairs ∧ q ≤ e.2 ∧
      (build1 pairs).root = some r ∧
      (build1 pairs).get_proof_nat i = some (chainOf r i) ∧
      (chainOf r i).head? = some ((hash_function e.1, e.2), Side.SELF) ∧
      (chainOf r i).getLast? = some ((r.val, r.idx), Side.ROOT) ∧
      check_proof (chainOf r i) = some r.val ∧
      rootPair (build1 pairs) = (r.val, r.idx) := by
  obtain ⟨r, hroot, hidx, hhash, hleaves, hcount, _, _⟩ := build1_facts pairs hne
  have harr : (build1 pairs).leaves.map (fun lf => (lf.dataD, lf.idx))
      = pairs := build1_leafmap pairs
  have hsome : (find_ge pairs q).isSome = true := (find_ge_spec pairs q hs).2 hex
  rcases hfq : find_ge pairs q with _ | ei
  · rw [hfq] at hsome
    simp at hsome
  obtain ⟨e, i⟩ := ei
  obtain ⟨hget, hqe, _⟩ := (find_ge_spec pairs q hs).1 e i hfq
  have hmem : e ∈ pairs := List.get?_mem hget
  have hi : i < pairs.length := get?_lt_length pairs i e hget
  have hicount : i < r.leafCount := by rw [hcount]; exact hi
  have hlf : r.leafAt i = mkLeaf e.1 e.2 false := by
    have h1 : r.leavesList.get? i = some (r.leafAt i) :=
      leavesList_get? r i hicount
    have h2 : r.leavesList.get? i = some (mkLeaf e.1 e.2 false) := by
      rw [hleaves, List.get?_map, hget]
      rfl
    rw [h1] at h2
    exact (Option.some.injEq _ _ ▸ h2)
  refine ⟨e, i, r, ?_, hmem, hqe, hroot,
    build1_get_proof pairs i hi r hroot, ?_,
    chainOf_getLast r i, check_proof_chainOf r i hhash hicount,
    rootPair_eq _ r hroot⟩
  · rw [harr]
    exact hfq
  · rw [chainOf_head, hlf]
    rfl

/-- Constructor form of a successful `getoutput` run. -/
theorem getoutput_eq (s : ServerState) (q : Int)
    (tr : ByteStr × Int) (tm : MerkleTree)
    (fb : (ByteStr × Int) × Nat) (bm : MerkleTree)
    (ft : (ByteStr × Int) × Nat) (txm : MerkleTree)
    (fo : (ByteStr × Int) × Nat) (blkp txp outp : Chain)
    (htr : s.top_root = some tr) (htm : s.top_merkle = some tm)
    (hcond : ¬(q < 0 ∨ tr.2 < q))
    (hfb : find_ge (tm.leaves.map (fun lf => (lf.dataD, lf.idx))) q = some fb)
    (hblkp : tm.get_proof_nat fb.2 = some blkp)
    (hbm : flookup s.merkle_forest fb.1.1 = some bm)
    (hft : find_ge (bm.leaves.map (fun lf => (lf.dataD, lf.idx))) q = some ft)
    (htxp : bm.get_proof_nat ft.2 = some txp)
    (htxm : flookup s.merkle_forest ft.1.1 = some txm)
    (hfo : find_ge (txm.leaves.map (fun lf => (lf.dataD, lf.idx))) q = some fo)
    (houtp : txm.get_proof_nat fo.2 = some outp) :
    getoutput s q = some (fo.1, (outp, txp, blkp)) := by
  unfold getoutput
  simp only [Option.bind_eq_bind]
  rw [htr]
  simp only [Option.some_bind]
  rw [htm]
  simp only [Option.some_bind]
  rw [if_neg hcond, hfb]
  simp only [Option.some_bind]
  rw [hblkp]
  simp only [Option.some_bind]
  rw [hbm]
  simp only [Option.some_bind]
  rw [hft]
  simp only [Option.some_bind]
  rw [htxp]
  simp only [Option.some_bind]
  rw [htxm]
  simp only [Option.some_bind]
  rw [hfo]
  simp only [Option.some_bind]
  rw [houtp]
  simp only [Option.some_bind]

/-- C2 (amended): hierarchical soundness holds for idx-sorted streams whose
built trees all carry distinct root digests (the insertion keys of the scan
are nodup).  For every query index `q` in `[0, top_root.idx]`, `getoutput`
answers and the returned `(output, (out_proof, tx_proof, blk_proof))` passes
`check_path` against the published top root.  Without the freshness
hypothesis the claim is false: a repeated key makes the `OrderedDict`
overwrite an earlier tree, and `check_path` then fails on the idx
comparison. -/
theorem hierarchical_soundness (records : List Record) (hne : records ≠ [])
    (hs : (records.map Record.idx).Sorted (· ≤ ·))
    (hnd : ((scanInsertions records).map Prod.fst).Nodup)
    (q : Int) (hq0 : 0 ≤ q)
    (hqt : q ≤ (rootPair (topTree records)).2) :
    ∃ res, getoutput (scan_over_new_blocks records ⟨[], [], none, none⟩) q
        = some res ∧
      check_path (rootPair (topTree records)) res.1 res.2 = true := by
  have hfe := scan_forest_eq records hnd
  -- top level
  have htopne := topLeaves_ne_nil records hne
  have htops := topLeaves_snd_sorted records hs
  obtain ⟨rT0, hrootT0, _, _, _, _, hattT, _⟩ :=
    build1_facts (topLeaves records) htopne
  have hpairT : rootPair (topTree records) = (rT0.val, rT0.idx) :=
    rootPair_eq _ _ hrootT0
  have hexT : ∃ p ∈ topLeaves records, q ≤ p.2 := by
    obtain ⟨p, hp, hpe⟩ := hattT
    refine ⟨p, hp, ?_⟩
    rw [hpe]
    rw [hpairT] at hqt
    exact hqt
  obtain ⟨fbE, fbI, rT, hfindT, hmemT, hqT, hrootT, hproofT, hheadT, hlastT,
    hcpT, hrpT⟩ := build1_query (topLeaves records) htopne q htops hexT
  -- the found top entry is a block pair
  obtain ⟨b, hbmem, hfbE⟩ := List.mem_map.mp (hmemT : fbE ∈ topLeaves records)
  have hbne : b ≠ [] := groups_ne_nil blkHash records b hbmem
  have hbs : (b.map Record.idx).Sorted (· ≤ ·) :=
    (groups_pairwise blkHash records hs).1 b hbmem
  have hlkB : flookup (scan_over_new_blocks records
      ⟨[], [], none, none⟩).merkle_forest fbE.1 = some (blkTree b) := by
    rw [hfe, ← hfbE]
    exact flookup_of_mem_nodup _ hnd _ _ (blk_mem_scanInsertions records b hbmem)
  -- block level
  have hblkne := blkLeaves_ne_nil b hbne
  have hblks := blkLeaves_snd_sorted b hbs
  obtain ⟨rB0, hrootB0, _, _, _, _, hattB, _⟩ :=
    build1_facts (blkLeaves b) hblkne
  have hpairB : blkPair b = (rB0.val, rB0.idx) := rootPair_eq _ _ hrootB0
  have hexB : ∃ p ∈ blkLeaves b, q ≤ p.2 := by
    obtain ⟨p, hp, hpe⟩ := hattB
    refine ⟨p, hp, ?_⟩
    rw [hpe]
    have h1 : q ≤ fbE.2 := hqT
    rw [← hfbE, hpairB] at h1
    exact h1
  obtain ⟨ftE, ftI, rB, hfindB, hmemB, hqB, hrootB, hproofB, hheadB, hlastB,
    hcpB, hrpB⟩ := build1_query (blkLeaves b) hblkne q hblks hexB
  -- the found block entry is a transaction pair
  obtain ⟨g, hgmem, hftE⟩ := List.mem_map.mp (hmemB : ftE ∈ blkLeaves b)
  have hgne : g ≠ [] := groups_ne_nil txHash b g hgmem
  have hgs : (g.map Record.idx).Sorted (· ≤ ·) :=
    (groups_pairwise txHash b hbs).1 g hgmem
  have hlkX : flookup (scan_over_new_blocks records
      ⟨[], [], none, none⟩).merkle_forest ftE.1 = some (txTree g) := by
    rw [hfe, ← hftE]
    exact flookup_of_mem_nodup _ hnd _ _
      (tx_mem_scanInsertions records b g hbmem hgmem)
  -- transaction level
  have htxne := txLeaves_ne_nil g hgne
  have htxs : ((txLeaves g).map Prod.snd).Sorted (· ≤ ·) := by
    rw [txLeaves_snd]
    exact hgs
  obtain ⟨rX0, hrootX0, _, _, _, _, hattX, _⟩ :=
    build1_facts (txLeaves g) htxne
  have hpairX : txPair g = (rX0.val, rX0.idx) := rootPair_eq _ _ hrootX0
  have hexX : ∃ p ∈ txLeaves g, q ≤ p.2 := by
    obtain ⟨p, hp, hpe⟩ := hattX
    refine ⟨p, hp, ?_⟩
    rw [hpe]
    have h1 : q ≤ ftE.2 := hqB
    rw [← hftE, hpairX] at h1
    exact h1
  obtain ⟨foE, foI, rX, hfindX, hmemX, hqX, hrootX, hproofX, hheadX, hlastX,
    hcpX, hrpX⟩ := build1_query (txLeaves g) htxne q htxs hexX
  -- identify the found entries with the level root pairs
  have hftE2 : ftE = (rX.val, rX.idx) := by
    rw [← hftE]
    exact hrpX
  have hfbE2 : fbE = (rB.val, rB.idx) := by
    rw [← hfbE]
    exact hrpB
  -- assemble the query run
  refine ⟨((foE, foI).1, (chainOf rX foI, chainOf rB ftI, chainOf rT fbI)),
    ?_, ?_⟩
  · refine getoutput_eq _ q (rootPair (topTree records)) (topTree records)
      (fbE, fbI) (blkTree b) (ftE, ftI) (txTree g) (foE, foI)
      (chainOf rT fbI) (chainOf rB ftI) (chainOf rX foI)
      rfl rfl ?_ hfindT hproofT hlkB hfindB hproofB hlkX hfindX hproofX
    rw [not_or]
    constructor
    · omega
    · omega
  · show check_path (rootPair (topTree records)) foE
      (chainOf rX foI, chainOf rB ftI, chainOf rT fbI) = true
    unfold check_path
    simp only [hheadX, hheadB, hheadT, hlastX, hlastB, hlastT]
    simp only [Bool.and_eq_true, decide_eq_true_eq]
    refine ⟨⟨⟨⟨⟨⟨?_, ?_⟩, ?_⟩, ?_⟩, ?_⟩, ?_⟩, ?_⟩
    · trivial
    · rw [hcpX]
      rfl
    · rw [hftE2]
    · rw [hcpB]
      rfl
    · rw [hfbE2]
    · rw [hcpT]
      rfl
    · exact hrpT.symm

/-- C2 fails as stated: two idx-sorted records with the same outkey yield a
forest in which the duplicate root digest overwrites the first transaction
tree, and the triple the query returns for `q = 0` (a valid index, `0 ≤ 0 ≤
top_root.idx`) fails `check_path`. -/
theorem hierarchical_soundness_counterexample :
    (([(⟨"B1", "T1", "k", 0⟩ : Record), ⟨"B2", "T2", "k", 1⟩].map
        Record.idx).Sorted (· ≤ ·)) ∧
    ∃ tr res,
      (scan_over_new_blocks [⟨"B1", "T1", "k", 0⟩, ⟨"B2", "T2", "k", 1⟩]
          ⟨[], [], none, none⟩).top_root = some tr ∧
      (0 : Int) ≤ 0 ∧ (0 : Int) ≤ tr.2 ∧
      getoutput (scan_over_new_blocks [⟨"B1", "T1", "k", 0⟩,
          ⟨"B2", "T2", "k", 1⟩] ⟨[], [], none, none⟩) 0 = some res ∧
      check_path tr res.1 res.2 = false := by
  refine ⟨by decide, _, _, rfl, by decide, by decide, rfl, by decide⟩

theorem hierarchical_soundness_witness :
    ∃ res, getoutput (scan_over_new_blocks [⟨"B", "T", "k", 0⟩]
        ⟨[], [], none, none⟩) 0 = some res ∧
      check_path (rootPair (topTree [⟨"B", "T", "k", 0⟩])) res.1 res.2 = true :=
  hierarchical_soundness [⟨"B", "T", "k", 0⟩] (by decide) (by decide)
    (by decide) 0 (by decide) (by decide)

/-- Term size of a byte string, separating a digest from any of its strict
sub-terms. -/
def ByteStr.size : ByteStr → Nat
  | .raw _ => 1
  | .sha b => b.size + 1
  | .cat a b => a.size + b.size + 1

theorem adjustFold_nil (x : Tree) : adjustFold [] x = x := rfl

/-- The adjusted root digest always differs from the old root digest: the
fold wraps strictly larger digests at the spine's base, and the hash
constructors are injective above it. -/
theorem adjust_val_ne : ∀ (t : Tree), t.hashOk = true → ∀ (c : Nat) (x : Tree),
    (adjustFold (subtreesAux t c) x).val ≠ t.val
  | t, _, 0, x => by
      rw [subtreesAux_zero, adjustFold_cons, adjustFold_nil]
      intro h
      have hsz := congrArg ByteStr.size h
      simp only [mkNode, Tree.val, hash_function, ByteStr.size] at hsz
      omega
  | .leaf v i d, _, c + 1, x => by
      show (adjustFold [Tree.leaf v i d] x).val ≠ v
      rw [adjustFold_cons, adjustFold_nil]
      intro h
      have hsz := congrArg ByteStr.size h
      simp only [mkNode, Tree.val, hash_function, ByteStr.size] at hsz
      omega
  | .node v i l r, hok, c + 1, x => by
      have hch : v = hash_function (ByteStr.cat l.val r.val) ∧
          l.hashOk = true ∧ r.hashOk = true := by
        simp only [Tree.hashOk, Bool.and_eq_true, decide_eq_true_eq] at hok
        exact ⟨hok.1.1, hok.1.2, hok.2⟩
      show (adjustFold (l :: subtreesAux r (c + 1 - 2 ^ intLog2 (c + 1))) x).val
        ≠ (Tree.node v i l r).val
      rw [adjustFold_cons]
      intro h
      simp only [mkNode, Tree.val] at h
      rw [hch.1] at h
      unfold hash_function at h
      injection h with h2
      injection h2 with h3 h4
      exact adjust_val_ne r hch.2.2 (c + 1 - 2 ^ intLog2 (c + 1)) x h4

theorem foldl_mk_idx_le : ∀ (l : List Tree) (x : Tree),
    x.idx ≤ (l.foldl (fun acc s => mkNode s acc) x).idx
  | [], x => le_refl _
  | s :: rest, x => by
      have h1 : x.idx ≤ (mkNode s x).idx := by
        simp only [mkNode, Tree.idx]
        exact le_max_right _ _
      exact le_trans h1 (foldl_mk_idx_le rest (mkNode s x))

theorem adjustFold_idx_le (subs : List Tree) (x : Tree) :
    x.idx ≤ (adjustFold subs x).idx :=
  foldl_mk_idx_le subs.reverse x

/-- Level grammar of output-level (transaction-tree) digests: hashes of raw
outkeys, closed under node concatenation. -/
def isV : ByteStr → Bool
  | .sha (.raw _) => true
  | .sha (.cat a b) => isV a && isV b
  | _ => false

/-- Level grammar of block-tree digests: re-hashes of transaction digests,
closed under node concatenation. -/
def isW : ByteStr → Bool
  | .sha (.sha z) => isV (ByteStr.sha z)
  | .sha (.cat a b) => isW a && isW b
  | _ => false

/-- Level grammar of top-tree digests: re-hashes of block digests, closed
under node concatenation. -/
def isU : ByteStr → Bool
  | .sha (.sha z) => isW (ByteStr.sha z)
  | .sha (.cat a b) => isU a && isU b
  | _ => false

/-- The three level grammars are pairwise disjoint. -/
theorem grammar_disjoint : ∀ x : ByteStr,
    (isV x && isW x) = false ∧ (isV x && isU x) = false ∧
      (isW x && isU x) = false
  | .raw _ => by simp [isV, isW, isU]
  | .sha (.raw _) => by simp [isV, isW, isU]
  | .sha (.sha z) => by
      have ih := grammar_disjoint (ByteStr.sha z)
      refine ⟨?_, ?_, ?_⟩
      · simp [isV]
      · simp [isV]
      · show (isV (ByteStr.sha z) && isW (ByteStr.sha z)) = false
        exact ih.1
  | .sha (.cat a b) => by
      have iha := grammar_disjoint a
      have ihb := grammar_disjoint b
      refine ⟨?_, ?_, ?_⟩
      · show ((isV a && isV b) && (isW a && isW b)) = false
        rcases Bool.and_eq_false_iff.mp iha.1 with h | h
        · rcases Bool.eq_false_or_eq_true (isV a) with h2 | h2 <;>
            simp [h, h2]
        · simp [h]
      · show ((isV a && isV b) && (isU a && isU b)) = false
        rcases Bool.and_eq_false_iff.mp iha.2.1 with h | h
        · rcases Bool.eq_false_or_eq_true (isV a) with h2 | h2 <;>
            simp [h, h2]
        · simp [h]
      · show ((isW a && isW b) && (isU a && isU b)) = false
        rcases Bool.and_eq_false_iff.mp iha.2.2 with h | h
        · rcases Bool.eq_false_or_eq_true (isW a) with h2 | h2 <;>
            simp [h, h2]
        · simp [h]
  | .cat _ _ => by simp [isV, isW, isU]

theorem isV_mkNode (a b : Tree) (ha : isV a.val = true)
    (hb : isV b.val = true) : isV (mkNode a b).val = true := by
  show isV (ByteStr.sha (ByteStr.cat a.val b.val)) = true
  show (isV a.val && isV b.val) = true
  rw [ha, hb]
  rfl

theorem isW_mkNode (a b : Tree) (ha : isW a.val = true)
    (hb : isW b.val = true) : isW (mkNode a b).val = true := by
  show isW (ByteStr.sha (ByteStr.cat a.val b.val)) = true
  show (isW a.val && isW b.val) = true
  rw [ha, hb]
  rfl

theorem isW_sha_of_isV (x : ByteStr) (h : isV x = true) :
    isW (ByteStr.sha x) = true := by
  cases x with
  | raw _ => simp [isV] at h
  | sha z =>
      show isV (ByteStr.sha z) = true
      exact h
  | cat _ _ => simp [isV] at h

/-- A transaction tree's root digest is an output-level digest. -/
theorem txPair_isV (g : List Record) (hne : g ≠ []) :
    isV (txPair g).1 = true := by
  obtain ⟨r, hroot, hbl⟩ := build1_root (txLeaves g) (txLeaves_ne_nil g hne)
  have hval : isV r.val = true := by
    refine buildLoop_pred (fun t => isV t.val = true)
      (fun a b ha hb => isV_mkNode a b ha hb) _ ?_ r hbl
    intro t ht
    simp only [MerkleTree.mk_of, txLeaves, List.map_map, List.mem_map] at ht
    obtain ⟨rec, _, hrec⟩ := ht
    rw [← hrec]
    rfl
  have hpair : (txPair g).1 = r.val := by
    unfold txPair txTree
    rw [rootPair_eq _ r hroot]
  rw [hpair]
  exact hval

/-- A block tree's root digest is a block-level digest. -/
theorem blkPair_isW (b : List Record) (hne : b ≠ []) :
    isW (blkPair b).1 = true := by
  obtain ⟨r, hroot, hbl⟩ := build1_root (blkLeaves b) (blkLeaves_ne_nil b hne)
  have hval : isW r.val = true := by
    refine buildLoop_pred (fun t => isW t.val = true)
      (fun a b2 ha hb => isW_mkNode a b2 ha hb) _ ?_ r hbl
    intro t ht
    simp only [MerkleTree.mk_of, blkLeaves, List.map_map, List.mem_map] at ht
    obtain ⟨g, hg, hgt⟩ := ht
    have hgne : g ≠ [] := groups_ne_nil txHash b g hg
    rw [← hgt]
    show isW (ByteStr.sha (txPair g).1) = true
    exact isW_sha_of_isV _ (txPair_isV g hgne)
  have hpair : (blkPair b).1 = r.val := by
    unfold blkPair blkTree
    rw [rootPair_eq _ r hroot]
  rw [hpair]
  exact hval

theorem flookup_finsert_self : ∀ (f : Forest) (k : ByteStr) (v : MerkleTree),
    flookup (finsert f k v) k = some v
  | [], k, v => by simp [finsert, flookup]
  | (k2, v2) :: rest, k, v => by
      unfold finsert
      by_cases h : k2 = k
      · rw [if_pos h]
        unfold flookup
        rw [if_pos rfl]
      · rw [if_neg h]
        unfold flookup
        rw [if_neg h]
        exact flookup_finsert_self rest k v

theorem flookup_finsert_ne : ∀ (f : Forest) (k k2 : ByteStr)
    (v : MerkleTree), k ≠ k2 → flookup (finsert f k2 v) k = flookup f k
  | [], k, k2, v, hne => by
      unfold finsert flookup
      rw [if_neg (fun h => hne h.symm)]
      rfl
  | (k3, v3) :: rest, k, k2, v, hne => by
      unfold finsert
      by_cases h : k3 = k2
      · rw [if_pos h]
        unfold flookup
        rw [if_neg (fun h2 : k2 = k => hne h2.symm),
          if_neg (fun h2 : k3 = k => hne (h2 ▸ h))]
      · rw [if_neg h]
        unfold flookup
        by_cases h2 : k3 = k
        · rw [if_pos h2, if_pos h2]
        · rw [if_neg h2, if_neg h2]
          exact flookup_finsert_ne rest k k2 v hne

theorem flookup_none_of_not_mem : ∀ (f : Forest) (k : ByteStr),
    k ∉ f.map Prod.fst → flookup f k = none
  | [], _, _ => rfl
  | (k2, v2) :: rest, k, h => by
      unfold flookup
      rw [if_neg (fun h2 => h (by simp [h2]))]
      exact flookup_none_of_not_mem rest k (fun h2 => h (by simp [h2]))

theorem flookup_ferase_self : ∀ (f : Forest),
    (f.map Prod.fst).Nodup → ∀ (k : ByteStr), flookup (ferase f k) k = none
  | [], _, _ => rfl
  | (k2, v2) :: rest, hnd, k => by
      rw [List.map_cons, List.nodup_cons] at hnd
      unfold ferase
      by_cases h : k2 = k
      · rw [if_pos h]
        exact flookup_none_of_not_mem rest k (fun h2 => hnd.1 (h ▸ h2))
      · rw [if_neg h]
        unfold flookup
        rw [if_neg h]
        exact flookup_ferase_self rest hnd.2 k

theorem flookup_txfold_ne (k : ByteStr) : ∀ (gs : List (List Record))
    (f : Forest), (∀ g ∈ gs, k ≠ (txPair g).1) →
    flookup (gs.foldl (fun acc g => finsert acc (txPair g).1 (txTree g)) f) k
      = flookup f k
  | [], f, _ => rfl
  | g :: rest, f, h => by
      rw [List.foldl_cons, flookup_txfold_ne k rest _
        (fun g2 hg2 => h g2 (by simp [hg2]))]
      exact flookup_finsert_ne f k (txPair g).1 (txTree g) (h g (by simp))

/-- A key outside both level grammars of the inserted trees survives
`block_to_merkle` unchanged. -/
theorem flookup_block_to_merkle_ne (b : List Record) (hne : b ≠ [])
    (f : Forest) (k : ByteStr) (hW : isW k = false)
    (hV : ∀ g ∈ groups txHash b, k ≠ (txPair g).1) :
    flookup (block_to_merkle b f).1 k = flookup f k := by
  show flookup (finsert ((groups txHash b).foldl
      (fun acc g => finsert acc (txPair g).1 (txTree g)) f)
    (blkPair b).1 (blkTree b)) k = flookup f k
  rw [flookup_finsert_ne _ k (blkPair b).1 (blkTree b) ?_, flookup_txfold_ne k _ f hV]
  intro he
  have := blkPair_isW b hne
  rw [← he, hW] at this
  exact Bool.noConfusion this

theorem runSplit_fst_mem (f : Record → String) (l : List Record)
    (hne : l ≠ []) : ∀ rec ∈ (runSplit f l).1, rec ∈ l := by
  intro rec hr
  have hj : (runSplit f l).1 ++ (runSplit f l).2 = l := by
    cases l with
    | nil => exact absurd rfl hne
    | cons r rest =>
        show (r :: (takeRun (f r) f rest).1) ++ (takeRun (f r) f rest).2
          = r :: rest
        rw [List.cons_append, takeRun_join]
  rw [← hj]
  exact List.mem_append_left _ hr

theorem runSplit_fst_ne_nil (f : Record → String) (r0 : Record)
    (rest : List Record) : (runSplit f (r0 :: rest)).1 ≠ [] := by
  show r0 :: (takeRun (f r0) f rest).1 ≠ []
  simp

/-- Forward computation of a successful `update_merkle` run. -/
theorem update_merkle_eq (s : ServerState) (tr : ByteStr × Int)
    (tm : MerkleTree) (r0 : Record) (rest : List Record) (m0 : MerkleTree)
    (htr : s.top_root = some tr) (htm : s.top_merkle = some tm)
    (hu : s.utxos = r0 :: rest)
    (hold : flookup s.merkle_forest tr.1 = some m0) :
    update_merkle s = some
      { utxos := (runSplit blkHash (r0 :: rest)).2,
        merkle_forest := finsert
          (block_to_merkle (runSplit blkHash (r0 :: rest)).1
            (ferase s.merkle_forest tr.1)).1
          (rootPair (tm.add_adjust
            (block_to_merkle (runSplit blkHash (r0 :: rest)).1
              (ferase s.merkle_forest tr.1)).2 false)).1
          (tm.add_adjust (block_to_merkle (runSplit blkHash (r0 :: rest)).1
            (ferase s.merkle_forest tr.1)).2 false),
        top_root := some (rootPair (tm.add_adjust
          (block_to_merkle (runSplit blkHash (r0 :: rest)).1
            (ferase s.merkle_forest tr.1)).2 false)),
        top_merkle := some (tm.add_adjust
          (block_to_merkle (runSplit blkHash (r0 :: rest)).1
            (ferase s.merkle_forest tr.1)).2 false) } := by
  unfold update_merkle
  simp only [Option.bind_eq_bind]
  rw [htr]
  simp only [Option.some_bind]
  rw [htm]
  simp only [Option.some_bind]
  rw [hu]
  simp only [Option.bind_eq_bind]
  rw [hold]
  simp only [Option.some_bind]

/-- C9: an update with pending records removes the forest entry keyed by the
superseded top root digest, installs an entry keyed by the new top root
digest mapping to the new top IMT, and strictly increases the published top
root index, provided the pending records carry indices above the current top
index, the old top digest is a top-level digest, and the forest keys are
distinct. -/
theorem incremental_update_transition (s : ServerState) (tr : ByteStr × Int)
    (tm : MerkleTree) (rT : Tree)
    (htr : s.top_root = some tr) (htm : s.top_merkle = some tm)
    (hroot : tm.root = some rT) (htrv : tr = (rT.val, rT.idx))
    (hhash : rT.hashOk = true) (hU : isU tr.1 = true)
    (hfnd : (s.merkle_forest.map Prod.fst).Nodup)
    (hold : (flookup s.merkle_forest tr.1).isSome = true)
    (hut : s.utxos ≠ [])
    (hidx : ∀ rec ∈ s.utxos, tr.2 < rec.idx) :
    ∃ s2, update_merkle s = some s2 ∧
      flookup s2.merkle_forest tr.1 = none ∧
      ∃ tr2 tm2, s2.top_root = some tr2 ∧ s2.top_merkle = some tm2 ∧
        flookup s2.merkle_forest tr2.1 = some tm2 ∧ tr.2 < tr2.2 := by
  rcases hu : s.utxos with _ | ⟨r0, rest⟩
  · exact absurd hu hut
  obtain ⟨m0, hm0⟩ := Option.isSome_iff_exists.mp hold
  have hupd := update_merkle_eq s tr tm r0 rest m0 htr htm hu hm0
  set p1 := (runSplit blkHash (r0 :: rest)).1 with hp1
  set f1 := ferase s.merkle_forest tr.1 with hf1
  set res := block_to_merkle p1 f1 with hres
  set tm2 := tm.add_adjust res.2 false with htm2
  set A := adjustFold (subtreesAux rT (looseOf tm.leaves.length))
    (mkLeaf res.2.1 res.2.2 false) with hA
  have hp1ne : p1 ≠ [] := runSplit_fst_ne_nil blkHash r0 rest
  have htm2root : tm2.root = some A := by
    rw [htm2]
    unfold MerkleTree.add_adjust
    rw [hroot]
  have htr2 : rootPair tm2 = (A.val, A.idx) := rootPair_eq tm2 A htm2root
  have hneq : A.val ≠ rT.val := by
    rw [hA]
    exact adjust_val_ne rT hhash _ _
  have hV : ∀ g ∈ groups txHash p1, tr.1 ≠ (txPair g).1 := by
    intro g hg he
    have hv := txPair_isV g (groups_ne_nil txHash p1 g hg)
    rw [← he] at hv
    have hd := (grammar_disjoint tr.1).2.1
    rw [hv, hU] at hd
    exact Bool.noConfusion hd
  have hW : isW tr.1 = false := by
    have hd := (grammar_disjoint tr.1).2.2
    rw [hU, Bool.and_true] at hd
    exact hd
  refine ⟨_, hupd, ?_, ?_⟩
  · show flookup (finsert res.1 (rootPair tm2).1 tm2) tr.1 = none
    rw [flookup_finsert_ne _ _ _ _ ?_]
    · rw [hres]
      rw [flookup_block_to_merkle_ne p1 hp1ne f1 tr.1 hW hV, hf1]
      exact flookup_ferase_self s.merkle_forest hfnd tr.1
    · rw [htr2, htrv]
      exact fun h => hneq (h.symm : (A.val, A.idx).1 = (rT.val, rT.idx).1)
  · refine ⟨rootPair tm2, tm2, rfl, rfl, ?_, ?_⟩
    · show flookup (finsert res.1 (rootPair tm2).1 tm2) (rootPair tm2).1
        = some tm2
      exact flookup_finsert_self _ _ _
    · rw [htr2]
      show tr.2 < A.idx
      have h1 : (mkLeaf res.2.1 res.2.2 false).idx ≤ A.idx := by
        rw [hA]
        exact adjustFold_idx_le _ _
      rw [mkLeaf_idx] at h1
      have hres2 : res.2 = blkPair p1 := by
        rw [hres]
        rfl
      obtain ⟨rec, hrmem, hridx⟩ := (blkPair_facts p1 hp1ne).1
      have hrecu : rec ∈ s.utxos := by
        rw [hu]
        exact runSplit_fst_mem blkHash (r0 :: rest) (by simp) rec hrmem
      calc tr.2 < rec.idx := hidx rec hrecu
        _ = (blkPair p1).2 := hridx
        _ = res.2.2 := by rw [hres2]
        _ ≤ A.idx := h1

theorem incremental_update_transition_witness :
    ∃ tr, (scan_over_new_blocks [⟨"B", "T", "k", 0⟩]
        ⟨[⟨"B2", "T2", "k2", 1⟩], [], none, none⟩).top_root = some tr ∧
      ∃ s2, update_merkle (scan_over_new_blocks [⟨"B", "T", "k", 0⟩]
          ⟨[⟨"B2", "T2", "k2", 1⟩], [], none, none⟩) = some s2 ∧
        flookup s2.merkle_forest tr.1 = none ∧
        ∃ tr2 tm2, s2.top_root = some tr2 ∧ s2.top_merkle = some tm2 ∧
          flookup s2.merkle_forest tr2.1 = some tm2 ∧ tr.2 < tr2.2 :=
  ⟨_, rfl, incremental_update_transition _ _ _ _ rfl rfl rfl rfl (by decide)
    (by decide) (by decide) (by decide) (by decide) (by decide)⟩

end MoneroAds
